import Mathlib

/-!
# ObservationManager (standalone_tracker/src/ObservationManager.cpp)

A shallow embedding of the observation manager of the standalone tracker and
proofs about its feature association, node registry, confidence functions and
horizon calibration.

Conventions of the embedding

* `float` and `double` values are elements of a type `F`.  The feature
  association only moves such values around and compares responses with `<`,
  so it is embedded over an arbitrary `F` carrying `+`, a cast from `int` and a
  decidable `<`; results that speak of "largest response" assume a linear
  order.  Every function asks of `F` only the operations it uses; theorems
  about arithmetic take `F` to be a linear ordered field (exact values: no
  rounding, no infinities, no NaN).
* `std::vector` is `List`; `erase(begin() + idx)` is `List.eraseIdx`.
* The three parallel vectors filled by `FeatTracker::get_features`
  (`feat_pts`, `responses`, `current_feat_idx`, asserted equal-sized at the end
  of `preprocessFeats`) are one list of `TrackedFeat` records.
* Code outside the file (`in_any_rect`, `cv::groupRectangles`, the camera model,
  the node implementations, `log_gaussian_prob`, the vanishing point estimator)
  enters the definitions as parameters or record fields.
* Where the source asserts or indexes outside a vector the embedded function
  returns `none`.  Line 195 of `preprocessFeats` dereferences the iterator
  returned by `std::find` without comparing it with `end()`, so a lookup of an
  identifier that is not in the pool reads one `int` behind the vector:
  `preprocessFeatsChecked` returns `none` for a call with such a lookup.
  `preprocessFeats` is the same method with that lookup resolved as "not
  found" (see `matchStep`); the two agree on every call that has no such
  lookup (`preprocessFeatsChecked_eq`), and what is proved of `preprocessFeats`
  describes the source on those calls.
* Division is the division of the field, so a quotient by zero is `0` here
  while it is an infinity or NaN for `double`; statements that depend on a
  quotient name the non-zero divisor as a hypothesis.
-/

namespace people

/-! ## Data model -/

/-- The type `cv::Point2f`. -/
structure Point2f (F : Type) where
  x : F
  y : F
deriving DecidableEq

/-- The type `cv::Point3f`. -/
structure Point3f (F : Type) where
  x : F
  y : F
  z : F
deriving DecidableEq

/-- The type `cv::Rect` (integer corner, width and height). -/
structure Rect where
  x : Int
  y : Int
  width : Int
  height : Int
deriving DecidableEq

/-- One entry of the output of `FeatTracker::get_features`: the entries at one
index of `current_feat_idx`, `feat_pts` and `responses`. -/
structure TrackedFeat (F : Type) where
  id : Int
  pt : Point2f F
  response : F
deriving DecidableEq

/-- An `ObservationNode` as far as the manager uses it: the results of the
virtual methods `getType()`, `getConfidence(rt)` and `getDetections()`. -/
structure ObservationNode (F : Type) where
  getType : String
  getConfidence : Rect → F
  getDetections : List Rect

/-- The enumeration `ObjectType`; `getHorizonVotes` knows `ObjPerson` and
`ObjCar` and asserts on every other value. -/
inductive ObjectType where
  | ObjPerson
  | ObjCar
  | other (code : Nat)
deriving DecidableEq

/-- An object hypothesis, read through `getElement(i)` only. -/
structure ObjectState (F : Type) where
  getElement : Nat → F

/-- A feature hypothesis (3D point), consumed only by the camera projection. -/
structure FeatureState (F : Type) where
  x_ : F
  y_ : F
  z_ : F

/-- A camera state: the discriminant returned by `getStateType()` and the
indexed elements behind `getElement(i)` / `setElement(i, v)`.  For
`"simplified_camera"` element 7 is the horizon row and element 3 the camera
height.  `clone()` is the identity on this value. -/
structure CameraState (F : Type) where
  getStateType : String
  getElement : Nat → F

/-- The member variables of `ObservationManager` that the embedded methods
use.  `vp_est_` is represented by its method `getHorizonConfidence` and
`img_mono_` by its number of rows. -/
structure ObservationManager (F : Type) where
  min_height_ : F
  max_height_ : F
  total_weight_ : F
  obs_lkhood_out_of_height_ : F
  mean_horizon_ : F
  std_horizon_ : F
  gfeat_sigma_u_ : F
  gfeat_sigma_v_ : F
  has_depth_ : Bool
  obj_type_ : ObjectType
  nodes_ : List (ObservationNode F)
  gfeats_ : List (Point2f F)
  gfeats_idx_ : List Int
  img_mono_rows : Int
  vp_est_ : F → F

/-- The local and member variables that the two loops of `preprocessFeats`
read and write: `gfeats_`, `gfeats_idx_`, `deleted_feats`, the counter `n` and
the not yet consumed part of the tracked pool. -/
structure FeatSel (F : Type) where
  gfeats_ : List (Point2f F)
  gfeats_idx_ : List Int
  deleted_feats : List Nat
  n : Int
  pool : List (TrackedFeat F)

/-! ## Feature association: `preprocessFeats` -/

section FeatureAssociation

variable {F : Type}

/-- Lines 170-172: every tracked point has `floor(img_mono_.rows / 2)` added to
its row (`rows / 2` is integer division of a non-negative `int`). -/
def shiftFeat [Add F] [IntCast F] (rows : Int) (f : TrackedFeat F) : TrackedFeat F :=
  { f with pt := { x := f.pt.x, y := f.pt.y + ((Int.tdiv rows 2 : Int) : F) } }

/-- Lines 175-184: every target and then every detection is pushed twice. -/
def duplicatedBoxes (targets dets : List Rect) : List Rect :=
  (targets.flatMap fun r => [r, r]) ++ (dets.flatMap fun r => [r, r])

/-- The call `std::find(current_feat_idx.begin(), current_feat_idx.end(), v)`,
as the offset of the returned iterator from `begin()`: the first index holding
`v`, or the size of the vector (the end iterator) when `v` is absent. -/
def findFeat (pool : List (TrackedFeat F)) (v : Int) : Nat :=
  pool.findIdx fun f => f.id == v

/-- Body of the loop of lines 191-222 without the final quota test, for
position `i` holding identifier `v`.  When `v` is in the pool this is the
source.  When `v` is absent `std::find` returns the end iterator and the test
`*it == prev_feats_idx[i]` of line 195 reads behind the vector, which the
language leaves undefined; the last branch below resolves that read as a
failed test (the branch that the comment `// if found..` excludes).
`matchStepChecked` is the body without this resolution. -/
def matchStep (excl : Point2f F → Bool) (v : Int) (i : Nat) (s : FeatSel F) : FeatSel F :=
  let idx := findFeat s.pool v
  match s.pool[idx]? with
  | some f =>
    if f.id == v then
      if !excl f.pt then
        { gfeats_ := s.gfeats_ ++ [f.pt]
          gfeats_idx_ := s.gfeats_idx_ ++ [f.id]
          deleted_feats := s.deleted_feats
          n := s.n + 1
          pool := s.pool.eraseIdx idx }
      else
        { s with deleted_feats := s.deleted_feats ++ [i], pool := s.pool.eraseIdx idx }
    else
      { s with deleted_feats := s.deleted_feats ++ [i] }
  | none => { s with deleted_feats := s.deleted_feats ++ [i] }

/-- The loop of lines 191-222 over the positions `i, i+1, ...` that hold the
identifiers `prev`: after each body the loop is left when `n >= max_feats`. -/
def matchLoop (excl : Point2f F → Bool) (max_feats : Int) :
    List Int → Nat → FeatSel F → FeatSel F
  | [], _, s => s
  | v :: rest, i, s =>
    let s1 := matchStep excl v i s
    if s1.n ≥ max_feats then s1 else matchLoop excl max_feats rest (i + 1) s1

/-- Number of positions of `prev` for which the body of the loop of lines
191-222 runs (the position at which `break` is taken included). -/
def matchScanned (excl : Point2f F → Bool) (max_feats : Int) :
    List Int → Nat → FeatSel F → Nat
  | [], _, _ => 0
  | v :: rest, i, s =>
    let s1 := matchStep excl v i s
    if s1.n ≥ max_feats then 1 else 1 + matchScanned excl max_feats rest (i + 1) s1

/-- The scan of `std::max_element` after its first element: `largest` is the
offset of the running maximum, `lv` its value, `cur` the offset of the head of
the remaining range. -/
def maxElementFrom [LT F] [DecidableRel fun a b : F => a < b] :
    Nat → F → Nat → List F → Nat
  | largest, _, _, [] => largest
  | largest, lv, cur, x :: xs =>
    if lv < x then maxElementFrom cur x (cur + 1) xs
    else maxElementFrom largest lv (cur + 1) xs

/-- The call `std::max_element(responses.begin(), responses.end())` as an
offset from `begin()`: the first element that no later element exceeds under
`operator<`; offset `0` (the end iterator) on an empty range. -/
def max_element [LT F] [DecidableRel fun a b : F => a < b] : List F → Nat
  | [] => 0
  | x :: xs => maxElementFrom 0 x 1 xs

/-- Body of the loop of lines 225-242. -/
def fillStep [LT F] [DecidableRel fun a b : F => a < b]
    (excl : Point2f F → Bool) (s : FeatSel F) : FeatSel F :=
  let idx := max_element (s.pool.map fun f => f.response)
  match s.pool[idx]? with
  | some f =>
    if !excl f.pt then
      { gfeats_ := s.gfeats_ ++ [f.pt]
        gfeats_idx_ := s.gfeats_idx_ ++ [f.id]
        deleted_feats := s.deleted_feats
        n := s.n + 1
        pool := s.pool.eraseIdx idx }
    else
      { s with pool := s.pool.eraseIdx idx }
  | none => s

/-- The loop of lines 225-242, `while(n < max_feats && current_feat_idx.size() > 0)`,
with a bound on the number of iterations.  Every iteration erases one pool
entry, so `fuel = pool.length` never runs out (`fillLoop_exit`). -/
def fillLoop [LT F] [DecidableRel fun a b : F => a < b]
    (excl : Point2f F → Bool) (max_feats : Int) : Nat → FeatSel F → FeatSel F
  | 0, s => s
  | fuel + 1, s =>
    if s.n < max_feats ∧ s.pool.length > 0 then
      fillLoop excl max_feats fuel (fillStep excl s)
    else s

/-- Lines 187-190: `gfeats_` and `gfeats_idx_` are cleared, `n = 0`, nothing is
deleted yet and the pool is the tracker output with shifted rows. -/
def initSel [Add F] [IntCast F] (rows : Int) (tracked : List (TrackedFeat F)) : FeatSel F :=
  { gfeats_ := [], gfeats_idx_ := [], deleted_feats := [], n := 0
    pool := tracked.map (shiftFeat rows) }

/-- State after the first loop of `preprocessFeats` (line 222). -/
def matchPhase [Add F] [IntCast F] (excl : Point2f F → Bool) (rows : Int)
    (tracked : List (TrackedFeat F)) (prev_feats_idx : List Int) (max_feats : Int) :
    FeatSel F :=
  matchLoop excl max_feats prev_feats_idx 0 (initSel rows tracked)

/-- The two loops of `preprocessFeats` (lines 187-246) for a given exclusion
test `excl pt = in_any_rect(bbs, pt)`, tracker output `tracked` and image
height `rows`.  The fields `gfeats_` and `gfeats_idx_` of the result are the
new member vectors and `deleted_feats` is the returned vector. -/
def selectFeats [Add F] [IntCast F] [LT F] [DecidableRel fun a b : F => a < b]
    (excl : Point2f F → Bool) (rows : Int) (tracked : List (TrackedFeat F))
    (prev_feats_idx : List Int) (max_feats : Int) : FeatSel F :=
  let s := matchPhase excl rows tracked prev_feats_idx max_feats
  fillLoop excl max_feats s.pool.length s

/-- The method `ObservationManager::getDetections()`: the detections of all
nodes, concatenated in node order. -/
def getDetections (mgr : ObservationManager F) : List Rect :=
  mgr.nodes_.flatMap fun nd => nd.getDetections

/-- The method `ObservationManager::preprocessFeats`.  `tracked` is what
`feat_tracker_->get_features(time_sec_, ...)` delivers;
`groupRectangles bbs` stands for the in-place `cv::groupRectangles(bbs, 1, 0.2)`
and `in_any_rect` for the helper of `common/util.h`.  The result is the manager
with its new `gfeats_` and `gfeats_idx_`, and the returned `deleted_feats`. -/
def preprocessFeats [Add F] [IntCast F] [LT F] [DecidableRel fun a b : F => a < b]
    (groupRectangles : List Rect → List Rect)
    (in_any_rect : List Rect → Point2f F → Bool)
    (tracked : List (TrackedFeat F)) (mgr : ObservationManager F)
    (prev_feats_idx : List Int) (max_feats : Int) (targets : List Rect) :
    ObservationManager F × List Nat :=
  let bbs := groupRectangles (duplicatedBoxes targets (getDetections mgr))
  let sel := selectFeats (in_any_rect bbs) mgr.img_mono_rows tracked prev_feats_idx max_feats
  ({ mgr with gfeats_ := sel.gfeats_, gfeats_idx_ := sel.gfeats_idx_ }, sel.deleted_feats)

/-- Number of positions of `prev_feats_idx` that the first loop of
`preprocessFeats` visits before it ends or breaks on the quota. -/
def scannedPositions [Add F] [IntCast F]
    (groupRectangles : List Rect → List Rect)
    (in_any_rect : List Rect → Point2f F → Bool)
    (tracked : List (TrackedFeat F)) (mgr : ObservationManager F)
    (prev_feats_idx : List Int) (max_feats : Int) (targets : List Rect) : Nat :=
  let bbs := groupRectangles (duplicatedBoxes targets (getDetections mgr))
  matchScanned (in_any_rect bbs) max_feats prev_feats_idx 0 (initSel mgr.img_mono_rows tracked)

/-- Body of the loop of lines 191-222 with the read of line 195 as the source
has it.  `it = std::find(...)` is `end()` when no pool entry carries `v`, and
`if(*it == prev_feats_idx[i])` dereferences it without a comparison with
`end()`: the read is outside the vector and the result is `none`.  When `v` is
in the pool the body is `matchStep`. -/
def matchStepChecked (excl : Point2f F → Bool) (v : Int) (i : Nat) (s : FeatSel F) :
    Option (FeatSel F) :=
  match s.pool[findFeat s.pool v]? with
  | some _ => some (matchStep excl v i s)
  | none => none

/-- The loop of lines 191-222 over the bodies `matchStepChecked`: `none` as soon
as a visited position holds an identifier that is not in the pool at that
moment, the loop of `matchLoop` otherwise. -/
def matchLoopChecked (excl : Point2f F → Bool) (max_feats : Int) :
    List Int → Nat → FeatSel F → Option (FeatSel F)
  | [], _, s => some s
  | v :: rest, i, s =>
    match matchStepChecked excl v i s with
    | some s1 => if s1.n ≥ max_feats then some s1 else matchLoopChecked excl max_feats rest (i + 1) s1
    | none => none

/-- The method `ObservationManager::preprocessFeats` with the read of line 195
as the source has it: `none` when the first loop dereferences the end iterator
of `current_feat_idx`, and otherwise the manager with its new `gfeats_` and
`gfeats_idx_` together with the returned `deleted_feats`. -/
def preprocessFeatsChecked [Add F] [IntCast F] [LT F] [DecidableRel fun a b : F => a < b]
    (groupRectangles : List Rect → List Rect)
    (in_any_rect : List Rect → Point2f F → Bool)
    (tracked : List (TrackedFeat F)) (mgr : ObservationManager F)
    (prev_feats_idx : List Int) (max_feats : Int) (targets : List Rect) :
    Option (ObservationManager F × List Nat) :=
  let bbs := groupRectangles (duplicatedBoxes targets (getDetections mgr))
  match matchLoopChecked (in_any_rect bbs) max_feats prev_feats_idx 0
      (initSel mgr.img_mono_rows tracked) with
  | some s =>
    let sel := fillLoop (in_any_rect bbs) max_feats s.pool.length s
    some ({ mgr with gfeats_ := sel.gfeats_, gfeats_idx_ := sel.gfeats_idx_ }, sel.deleted_feats)
  | none => none

/-- The tracked pool as `preprocessFeats` sees it after lines 170-172. -/
def shiftedPool [Add F] [IntCast F] (mgr : ObservationManager F)
    (tracked : List (TrackedFeat F)) : List (TrackedFeat F) :=
  tracked.map (shiftFeat mgr.img_mono_rows)

/-- Invariant of both loops of `preprocessFeats` relative to the shifted pool
`P0`: the kept features are pool entries outside the exclusion zones, `n`
counts them, and the kept entries together with the unconsumed pool are, up to
order, part of `P0`. -/
def SelInv (excl : Point2f F → Bool) (P0 : List (TrackedFeat F)) (s : FeatSel F) : Prop :=
  ∃ kept : List (TrackedFeat F),
    s.gfeats_ = kept.map (fun f => f.pt) ∧ s.gfeats_idx_ = kept.map (fun f => f.id) ∧
    s.n = kept.length ∧ (∀ f ∈ kept, excl f.pt = false) ∧ (kept ++ s.pool).Subperm P0

end FeatureAssociation

/-! ## Node registry -/

section Registry

variable {F : Type}

/-- The method `ObservationManager::insertObservationNode`: `push_back`. -/
def insertObservationNode (mgr : ObservationManager F) (node : ObservationNode F) :
    ObservationManager F :=
  { mgr with nodes_ := mgr.nodes_ ++ [node] }

/-- The method `ObservationManager::getObservationNode`: the first node in
iteration order with `type == getType()`, `none` for the `NULL` result. -/
def getObservationNode (mgr : ObservationManager F) (type : String) :
    Option (ObservationNode F) :=
  mgr.nodes_.find? fun nd => type == nd.getType

end Registry

/-! ## Confidence functions -/

section Confidence

variable {F : Type}

/-- The constructor `ObservationManager::ObservationManager()`.  It does not
write `gfeat_sigma_u_`, `gfeat_sigma_v_`, the image or the estimator, which
are arguments here; `g_objtype` is a global of the program. -/
def ObservationManager.ctor [OfScientific F] [Neg F] [Zero F]
    (g_objtype : ObjectType) (sigma_u sigma_v : F) (rows : Int) (vp : F → F) :
    ObservationManager F :=
  { min_height_ := 1.3
    max_height_ := 2.3
    total_weight_ := 1.0
    obs_lkhood_out_of_height_ := -15.0
    mean_horizon_ := 0
    std_horizon_ := 0
    gfeat_sigma_u_ := sigma_u
    gfeat_sigma_v_ := sigma_v
    has_depth_ := false
    obj_type_ := g_objtype
    nodes_ := []
    gfeats_ := []
    gfeats_idx_ := []
    img_mono_rows := rows
    vp_est_ := vp }

/-- The method `ObservationManager::setParameters`.  `lexical_cast` is
`boost::lexical_cast<double>` (`none` where it throws) and `setParameter` the
virtual method of the nodes, to which every name and value is forwarded. -/
def setParameters (lexical_cast : String → Option F)
    (setParameter : ObservationNode F → String → String → ObservationNode F)
    (mgr : ObservationManager F) (name value : String) : Option (ObservationManager F) :=
  let updated : Option (ObservationManager F) :=
    if name = "min_height" then
      (lexical_cast value).map fun v => { mgr with min_height_ := v }
    else if name = "max_height" then
      (lexical_cast value).map fun v => { mgr with max_height_ := v }
    else if name = "total_weight" then
      (lexical_cast value).map fun v => { mgr with total_weight_ := v }
    else if name = "feat_sigma_u" then
      (lexical_cast value).map fun v => { mgr with gfeat_sigma_u_ := v }
    else if name = "feat_sigma_v" then
      (lexical_cast value).map fun v => { mgr with gfeat_sigma_v_ := v }
    else if name = "mean_horizon" then
      (lexical_cast value).map fun v => { mgr with mean_horizon_ := v }
    else if name = "std_horizon" then
      (lexical_cast value).map fun v => { mgr with std_horizon_ := v }
    else some mgr
  updated.map fun m => { m with nodes_ := m.nodes_.map fun nd => setParameter nd name value }

/-- The method `ObservationManager::getObjectConfidence`; `project` is
`cam_state->project(obj_state)` of the camera model. -/
def getObjectConfidence [LT F] [DecidableRel fun a b : F => a < b] [Zero F] [Add F] [Mul F]
    (project : CameraState F → ObjectState F → Rect)
    (mgr : ObservationManager F) (obj_state : ObjectState F) (cam_state : CameraState F)
    (type : String) : F :=
  if obj_state.getElement 1 < mgr.min_height_ ∨ obj_state.getElement 1 > mgr.max_height_ then
    mgr.obs_lkhood_out_of_height_
  else
    let rt := project cam_state obj_state
    let ret : F :=
      if type = "all" then
        mgr.nodes_.foldl (fun ret nd => ret + nd.getConfidence rt) 0
      else
        mgr.nodes_.foldl
          (fun ret nd => if nd.getType = type then ret + nd.getConfidence rt else ret) 0
    ret * mgr.total_weight_

/-- The value of `ret` in `getFeatureConfidence` before the `isnan` test of
line 406, for the observed point `obs = gfeats_[feat_idx]`;
`log_gaussian_prob` is the helper of `common/util.h`. -/
def rawFeatureConfidence [Add F] [Sub F] [Mul F] [OfScientific F]
    (log_gaussian_prob : F → F → F → F)
    (mgr : ObservationManager F) (proj : Point3f F) (obs : Point2f F) : F :=
  let ret := log_gaussian_prob obs.x proj.x mgr.gfeat_sigma_u_
  let ret := ret + log_gaussian_prob obs.y proj.y mgr.gfeat_sigma_v_
  ret - (log_gaussian_prob (1.4 * mgr.gfeat_sigma_u_) 0.0 mgr.gfeat_sigma_u_
          + log_gaussian_prob (1.4 * mgr.gfeat_sigma_v_) 0.0 mgr.gfeat_sigma_v_)

/-- The method `ObservationManager::getFeatureConfidence`.  `project` is
`cam_state->project(feat_state)`, `isnan` the test of `<cmath>`.  The result is
`none` where the source asserts (`has_depth_`) or indexes `gfeats_` outside its
bounds.  The argument `type` is not read by the source. -/
def getFeatureConfidence [Add F] [Sub F] [Mul F] [Neg F] [OfScientific F]
    (log_gaussian_prob : F → F → F → F) (isnan : F → Bool)
    (project : CameraState F → FeatureState F → Point3f F)
    (mgr : ObservationManager F) (feat_state : FeatureState F) (feat_idx : Int)
    (cam_state : CameraState F) (_type : String) : Option F :=
  if mgr.has_depth_ then none
  else if feat_idx < 0 then none
  else
    match mgr.gfeats_[feat_idx.toNat]? with
    | none => none
    | some obs =>
      let proj := project cam_state feat_state
      let ret := rawFeatureConfidence log_gaussian_prob mgr proj obs
      if isnan ret then some (-100.0) else some ret

end Confidence

/-! ## Horizon votes and camera calibration -/

section Calibration

variable {F : Type}

/-- The method `setElement(i, v)` of a camera state. -/
def CameraState.setElement (cam : CameraState F) (i : Nat) (v : F) : CameraState F :=
  { cam with getElement := fun j => if j = i then v else cam.getElement j }

/-- Conversion of a `double` to `int`: truncation toward zero (values outside
the range of `int` are not considered). -/
def toInt [LinearOrderedField F] [FloorRing F] (x : F) : Int :=
  if 0 ≤ x then ⌊x⌋ else ⌈x⌉

/-- The function `round` of `<cmath>`: the nearest integer, halfway cases away
from zero. -/
def cround [LinearOrderedField F] [FloorRing F] (x : F) : Int :=
  if 0 ≤ x then ⌊x + 1 / 2⌋ else ⌈x - 1 / 2⌉

/-- The constant `DBL_MAX` of `<cfloat>`, `(2 - 2^(-52)) * 2^1023`. -/
def DBL_MAX [LinearOrderedField F] : F := 2 ^ 1024 - 2 ^ 971

/-- The class height constants of the program (`MEAN_PERSON_HEIGHT`, ... are
macros defined outside the file). -/
structure HeightPriors (F : Type) where
  MEAN_PERSON_HEIGHT : F
  STD_PERSON_HEIGHT : F
  MEAN_CAR_HEIGHT : F
  STD_CAR_HEIGHT : F

/-- Lines 430-433 of `getHorizonVotes` for given `mh`, `stdh`: one vote and one
standard deviation per detection.  The vote is stored in a `std::vector<int>`,
which converts the `double` sum back to `int`. -/
def horizonVotesFor [LinearOrderedField F] [FloorRing F] (mh stdh camh : F)
    (dets : List Rect) : List Int × List F :=
  (dets.map fun d =>
      toInt ((d.y : F) + ((cround ((d.height : F) * (mh - camh) / mh) : Int) : F)),
   dets.map fun d => (d.height : F) / mh * stdh)

/-- The method `ObservationManager::getHorizonVotes`: the output vectors
`votes` and `stds`, or `none` where the source asserts on the object type. -/
def getHorizonVotes [LinearOrderedField F] [FloorRing F] (hp : HeightPriors F)
    (mgr : ObservationManager F) (camh : F) : Option (List Int × List F) :=
  let dets := getDetections mgr
  match mgr.obj_type_ with
  | ObjectType.ObjPerson =>
    some (horizonVotesFor hp.MEAN_PERSON_HEIGHT hp.STD_PERSON_HEIGHT camh dets)
  | ObjectType.ObjCar =>
    some (horizonVotesFor hp.MEAN_CAR_HEIGHT hp.STD_CAR_HEIGHT camh dets)
  | ObjectType.other _ => none

/-- The method `ObservationManager::getCameraConfidence`; `none` where the
source asserts. -/
def getCameraConfidence [LinearOrderedField F] [FloorRing F] (hp : HeightPriors F)
    (mgr : ObservationManager F) (cam_state : CameraState F) : Option F :=
  if cam_state.getStateType = "simplified_camera" then
    let ret := mgr.vp_est_ (cam_state.getElement 7)
    match getHorizonVotes hp mgr (cam_state.getElement 3) with
    | none => none
    | some (votes, std) =>
      let ret := (votes.zip std).foldl
        (fun ret vs =>
          let diff := (vs.1 : F) - cam_state.getElement 7
          ret - min ((diff / vs.2) ^ 2) 9.0) ret
      let ret :=
        if mgr.mean_horizon_ ≠ 0 then
          ret - ((cam_state.getElement 7 - mgr.mean_horizon_) / mgr.std_horizon_) ^ 2
        else ret
      some ret
  else none

/-- The variables of the loop of `initializeCamera`: the state that is
returned, the clone `temp` and `max_conf`. -/
structure ScanState (F : Type) where
  cam_state : CameraState F
  temp : CameraState F
  max_conf : F

/-- The rows visited by `for(int i = imin; i < imax; i++)`. -/
def horizonCandidates (imin imax : Int) : List Int :=
  (List.range (imax - imin).toNat).map fun (k : Nat) => imin + (k : Int)

/-- Body of the loop of `initializeCamera` (lines 333-338) for candidate row
`i`, with `conf` in the place of `getCameraConfidence`; `none` when `conf`
asserts. -/
def horizonScanStep [LT F] [DecidableRel fun a b : F => a < b] [IntCast F]
    (conf : CameraState F → Option F) (st : Option (ScanState F)) (i : Int) :
    Option (ScanState F) :=
  match st with
  | none => none
  | some s =>
    let temp := s.temp.setElement 7 (i : F)
    match conf temp with
    | none => none
    | some tval =>
      if s.max_conf < tval then
        some { cam_state := s.cam_state.setElement 7 (i : F), temp := temp, max_conf := tval }
      else
        some { s with temp := temp }

/-- The method `ObservationManager::initializeCamera` with `conf` in the place
of the member function `getCameraConfidence`; `none` where the source
asserts. -/
def initializeCameraWith [LinearOrderedField F] [FloorRing F]
    (conf : CameraState F → Option F) (cam_state : CameraState F) :
    Option (CameraState F) :=
  if cam_state.getStateType = "simplified_camera" then
    let temp := cam_state
    let imin := toInt (cam_state.getElement 7 - 200)
    let imax := toInt (cam_state.getElement 7 + 200)
    let max_conf : F := -DBL_MAX
    ((horizonCandidates imin imax).foldl (horizonScanStep conf)
        (some { cam_state := cam_state, temp := temp, max_conf := max_conf })).map
      fun s => s.cam_state
  else none

/-- The method `ObservationManager::initializeCamera`. -/
def initializeCamera [LinearOrderedField F] [FloorRing F] (hp : HeightPriors F)
    (mgr : ObservationManager F) (cam_state : CameraState F) : Option (CameraState F) :=
  initializeCameraWith (getCameraConfidence hp mgr) cam_state

end Calibration

/-! ## Example data -/

section Examples

/-- An instance of the helper `in_any_rect` on integer coordinates: the point
lies in some box, with the half-open containment of `cv::Rect::contains`. -/
def inAnyRectInt (bbs : List Rect) (pt : Point2f Int) : Bool :=
  bbs.any fun r =>
    decide (r.x ≤ pt.x ∧ pt.x < r.x + r.width ∧ r.y ≤ pt.y ∧ pt.y < r.y + r.height)

/-- An instance of the grouping step for boxes that are pairwise identical or
far apart: each cluster of identical boxes is replaced by one box. -/
def groupIdentical (bbs : List Rect) : List Rect := bbs.dedup

/-- A manager whose numeric parameters hold integer values (`min_height = 1`,
`max_height = 2`, the other members as the constructor leaves them), with the
given nodes and image height. -/
def intManager (nodes : List (ObservationNode Int)) (rows : Int) : ObservationManager Int :=
  { min_height_ := 1
    max_height_ := 2
    total_weight_ := 1
    obs_lkhood_out_of_height_ := -15
    mean_horizon_ := 0
    std_horizon_ := 0
    gfeat_sigma_u_ := 1
    gfeat_sigma_v_ := 1
    has_depth_ := false
    obj_type_ := ObjectType.ObjPerson
    nodes_ := nodes
    gfeats_ := []
    gfeats_idx_ := []
    img_mono_rows := rows
    vp_est_ := fun _ => 0 }

/-- A tracked feature with identifier `id`, response `r` and position
`(x, y)` in the cropped lower half of the image. -/
def trackedAt (id : Int) (x y : Int) (r : Int) : TrackedFeat Int :=
  { id := id, pt := { x := x, y := y }, response := r }

end Examples

section NumericExamples

/-- Rationals extended by one not-a-number value `nan` that every arithmetic
operation propagates: a small stand-in for `double` in examples. -/
inductive NanRat where
  | nan
  | val (q : ℚ)

/-- The test `isnan` on `NanRat`. -/
def NanRat.isnan : NanRat → Bool
  | NanRat.nan => true
  | NanRat.val _ => false

/-- Lifting of a binary operation on rationals to `NanRat`. -/
def NanRat.lift₂ (op : ℚ → ℚ → ℚ) : NanRat → NanRat → NanRat
  | NanRat.val a, NanRat.val b => NanRat.val (op a b)
  | _, _ => NanRat.nan

instance : Add NanRat := ⟨NanRat.lift₂ fun a b => a + b⟩

instance : Sub NanRat := ⟨NanRat.lift₂ fun a b => a - b⟩

instance : Mul NanRat := ⟨NanRat.lift₂ fun a b => a * b⟩

instance : Neg NanRat :=
  ⟨fun a => match a with
    | NanRat.nan => NanRat.nan
    | NanRat.val q => NanRat.val (-q)⟩

instance : OfScientific NanRat :=
  ⟨fun m s e => NanRat.val (OfScientific.ofScientific m s e)⟩

/-- A stand-in for `log_gaussian_prob` on `NanRat` that is not-a-number for a
zero standard deviation and the quadratic term of the log density otherwise. -/
def nanLogGaussian (x m s : NanRat) : NanRat :=
  match x, m, s with
  | NanRat.val x, NanRat.val m, NanRat.val s =>
    if s = 0 then NanRat.nan else NanRat.val (-((x - m) / s) ^ 2 / 2)
  | _, _, _ => NanRat.nan

/-- A manager over `NanRat` as the constructor leaves it, with both feature
standard deviations zero and one feature in `gfeats_`. -/
def nanManager : ObservationManager NanRat :=
  { min_height_ := 1.3
    max_height_ := 2.3
    total_weight_ := 1.0
    obs_lkhood_out_of_height_ := -15.0
    mean_horizon_ := NanRat.val 0
    std_horizon_ := NanRat.val 0
    gfeat_sigma_u_ := NanRat.val 0
    gfeat_sigma_v_ := NanRat.val 0
    has_depth_ := false
    obj_type_ := ObjectType.ObjPerson
    nodes_ := []
    gfeats_ := [{ x := NanRat.val 10, y := NanRat.val 250 }]
    gfeats_idx_ := [1]
    img_mono_rows := 480
    vp_est_ := fun _ => NanRat.val 0 }

end NumericExamples

section CalibrationExamples

/-- A simplified camera over the rationals with horizon `h` (element 7) and
every other element 0. -/
def cameraWithHorizon (h : ℚ) : CameraState ℚ :=
  { getStateType := "simplified_camera", getElement := fun j => if j = 7 then h else 0 }

end CalibrationExamples

/-! ## Reference descriptions used in the theorems -/

section FillReference

variable {F : Type}

end FillReference

section DropReference

variable {F : Type}

/-- Invariant of the dropped-index list of `preprocessFeats` after `c` positions
of the previous-identifier list `prevAll` have been visited, in terms of the
identifier list `ids`, the list `deleted` and the unconsumed pool: `deleted`
is strictly increasing and below `c`; the identifier at a deleted position is
neither kept nor left in the pool; the identifier at a visited position that
is not deleted is kept; kept and pool identifiers are pairwise distinct. -/
def DropInv (prevAll : List Int) (c : Nat) (ids : List Int) (deleted : List Nat)
    (pool : List (TrackedFeat F)) : Prop :=
  deleted.Pairwise (fun a b => a < b) ∧
  (∀ j ∈ deleted, j < c) ∧
  (∀ j ∈ deleted, ∀ v, prevAll[j]? = some v → v ∉ ids ∧ ∀ f ∈ pool, f.id ≠ v) ∧
  (∀ j, j < c → j ∉ deleted → ∀ v, prevAll[j]? = some v → v ∈ ids) ∧
  (ids ++ pool.map fun f => f.id).Nodup

/-- During the first loop every kept identifier is the identifier of a visited
position. -/
def KeptScanned (prevAll : List Int) (c : Nat) (ids : List Int) : Prop :=
  ∀ v ∈ ids, ∃ j, j < c ∧ prevAll[j]? = some v

end DropReference

section CalibrationReference

variable {F : Type}

/-- The camera states that the loop of `initializeCamera` passes to `conf`
(`getCameraConfidence`), in the order of the calls, when the loop starts in
state `st` and visits the rows `cs`. -/
def horizonScanProbes [LT F] [DecidableRel fun a b : F => a < b] [IntCast F]
    (conf : CameraState F → Option F) :
    Option (ScanState F) → List Int → List (CameraState F)
  | none, _ => []
  | some _, [] => []
  | some s, i :: rest =>
    s.temp.setElement 7 (i : F) :: horizonScanProbes conf (horizonScanStep conf (some s) i) rest

/-- The camera states on which `initializeCamera` evaluates the confidence, in
the order of the calls. -/
def initializeCameraProbes [LinearOrderedField F] [FloorRing F]
    (conf : CameraState F → Option F) (cam_state : CameraState F) : List (CameraState F) :=
  if cam_state.getStateType = "simplified_camera" then
    horizonScanProbes conf
      (some { cam_state := cam_state, temp := cam_state, max_conf := -DBL_MAX })
      (horizonCandidates (toInt (cam_state.getElement 7 - 200))
        (toInt (cam_state.getElement 7 + 200)))
  else []

/-- Invariant of the loop of `initializeCamera` after the rows `pre`, for the
confidence `val i` of row `i`: either no row has been accepted, the returned
state and the maximum are the initial ones and no row of `pre` exceeds the
initial maximum `m0`; or the returned state carries a row `r` of `pre` whose
confidence is the maximum, exceeds `m0`, is at least that of every row of `pre`
and strictly above that of every smaller row of `pre`. -/
def ScanInv [LT F] [LE F] [IntCast F] (cam0 : CameraState F) (val : Int → F) (m0 : F)
    (pre : List Int) (s : ScanState F) : Prop :=
  (s.cam_state = cam0 ∧ s.max_conf = m0 ∧ ∀ i ∈ pre, val i ≤ m0) ∨
  (∃ r ∈ pre, s.cam_state = cam0.setElement 7 (r : F) ∧ s.max_conf = val r ∧ m0 < val r ∧
    ∀ i ∈ pre, val i ≤ val r ∧ (i < r → val i < val r))

end CalibrationReference

section ConfidenceExamples

/-- Class height constants used in examples: persons 1.7 ± 0.1, cars
1.5 ± 0.1. -/
def examplePriors : HeightPriors ℚ :=
  { MEAN_PERSON_HEIGHT := 17 / 10, STD_PERSON_HEIGHT := 1 / 10
    MEAN_CAR_HEIGHT := 3 / 2, STD_CAR_HEIGHT := 1 / 10 }

/-- A manager as constructed for persons whose vanishing point confidence
peaks at row 120, with the given nodes. -/
def peakManager (nodes : List (ObservationNode ℚ)) : ObservationManager ℚ :=
  { ObservationManager.ctor ObjectType.ObjPerson (1 : ℚ) 1 480 (fun h => -(h - 120) ^ 2) with
    nodes_ := nodes }

/-- A node of type `"hog"` reporting the given detections. -/
def hogNode (dets : List Rect) : ObservationNode ℚ :=
  { getType := "hog", getConfidence := fun _ => 1, getDetections := dets }

end ConfidenceExamples

section ParameterExamples

/-- A stand-in for `boost::lexical_cast<double>` that knows the decimal strings
used in the examples and fails (throws) on every other string. -/
def exampleLexicalCast (value : String) : Option ℚ :=
  if value = "0" then some 0
  else if value = "1" then some 1
  else if value = "100" then some 100
  else if value = "50" then some 50
  else none

/-- A node method `setParameter` that ignores every parameter. -/
def ignoreParameter (nd : ObservationNode ℚ) (_name _value : String) : ObservationNode ℚ := nd

end ParameterExamples

section GroupingReference

/-- One growth step of a cluster `c` within the boxes `bbs`: the boxes that
are in `c` or similar to a box of `c`. -/
def growCluster (similar : Rect → Rect → Bool) (bbs c : List Rect) : List Rect :=
  bbs.filter fun x => c.contains x || c.any fun y => similar y x || similar x y

/-- The cluster of box `b` within `bbs`: the boxes connected to `b` by a chain
of similar boxes, in the order of `bbs`. -/
def clusterOf (similar : Rect → Rect → Bool) (bbs : List Rect) (b : Rect) : List Rect :=
  Nat.iterate (growCluster similar bbs) bbs.length [b]

/-- Modelled from the spec: the rectangle grouping `cv::groupRectangles` of
OpenCV, called in line 185 as `cv::groupRectangles(bbs, 1, 0.2)`, whose code is
not under `src/`.  After section 4.2 step 2 of the specification: boxes merge
when they are similar (`similar`, "relative overlap exceeds 20%"), every
cluster of more than `minGroup` boxes is replaced by its merged box (`merge`)
and the smaller clusters are dropped.  `minGroup = 1` is the group threshold
of the call (a cluster needs two members, which is why line 177-184 push every
box twice); `minGroup = 0` is the reading in which one member suffices. -/
def groupRectanglesSpec (similar : Rect → Rect → Bool) (merge : List Rect → Rect)
    (minGroup : Nat) (bbs : List Rect) : List Rect :=
  (((bbs.map (clusterOf similar bbs)).dedup).filter fun c => decide (minGroup < c.length)).map
    merge

/-- An instance of the similarity test for the threshold 0.2 in integer
arithmetic: the four sides differ by at most a tenth of the sum of the smaller
width and the smaller height. -/
def similarRectsInt (r1 r2 : Rect) : Bool :=
  decide (10 * (r1.x - r2.x).natAbs ≤ (min r1.width r2.width + min r1.height r2.height).toNat ∧
    10 * (r1.y - r2.y).natAbs ≤ (min r1.width r2.width + min r1.height r2.height).toNat ∧
    10 * (r1.x + r1.width - r2.x - r2.width).natAbs ≤
      (min r1.width r2.width + min r1.height r2.height).toNat ∧
    10 * (r1.y + r1.height - r2.y - r2.height).natAbs ≤
      (min r1.width r2.width + min r1.height r2.height).toNat)

/-- An instance of the merge of a cluster: its first box (every box of a
cluster of identical boxes). -/
def mergeFirst (c : List Rect) : Rect :=
  c.headD { x := 0, y := 0, width := 0, height := 0 }

end GroupingReference

end people

/-! ## Theorems: feature association -/

namespace people

section FeatureAssociationLemmas

variable {F : Type}

/-- Erasing the entry at a valid offset leaves a list that, with the entry put
back in front, is a rearrangement of the original. -/
theorem perm_cons_eraseIdx_of_getElem? {α : Type} :
    ∀ (l : List α) (i : Nat) (a : α), l[i]? = some a → l.Perm (a :: l.eraseIdx i)
  | [], i, a, h => by simp at h
  | b :: l, 0, a, h => by
    simp at h
    subst h
    simp
  | b :: l, i + 1, a, h => by
    simp at h
    have ih := perm_cons_eraseIdx_of_getElem? l i a h
    simp only [List.eraseIdx_cons_succ]
    exact (List.Perm.cons b ih).trans (List.Perm.swap a b _)

/-- The three outcomes of `matchStep`: the identifier is found outside the
exclusion zones and kept, found inside one and dropped, or not in the pool, in
which case `matchStep` records the position as dropped (the source reads
behind the vector there, see `matchStepChecked`). -/
theorem matchStep_cases (excl : Point2f F → Bool) (v : Int) (i : Nat) (s : FeatSel F) :
    (∃ f, s.pool[findFeat s.pool v]? = some f ∧ f.id = v ∧ excl f.pt = false ∧
        matchStep excl v i s =
          { gfeats_ := s.gfeats_ ++ [f.pt], gfeats_idx_ := s.gfeats_idx_ ++ [f.id],
            deleted_feats := s.deleted_feats, n := s.n + 1,
            pool := s.pool.eraseIdx (findFeat s.pool v) }) ∨
    (∃ f, s.pool[findFeat s.pool v]? = some f ∧ f.id = v ∧ excl f.pt = true ∧
        matchStep excl v i s =
          { s with deleted_feats := s.deleted_feats ++ [i],
                   pool := s.pool.eraseIdx (findFeat s.pool v) }) ∨
    ((∀ f ∈ s.pool, f.id ≠ v) ∧
        matchStep excl v i s = { s with deleted_feats := s.deleted_feats ++ [i] }) := by
  cases h : s.pool[findFeat s.pool v]? with
  | none =>
    right; right
    refine ⟨?_, by simp [matchStep, h]⟩
    have hlen : s.pool.length ≤ findFeat s.pool v := by
      by_contra hc
      push_neg at hc
      rw [List.getElem?_eq_getElem hc] at h
      exact Option.noConfusion h
    have hle : findFeat s.pool v ≤ s.pool.length := List.findIdx_le_length _
    have heq : List.findIdx (fun f : TrackedFeat F => f.id == v) s.pool = s.pool.length :=
      le_antisymm hle hlen
    rw [List.findIdx_eq_length] at heq
    intro f hf hfv
    have := heq f hf
    simp [hfv] at this
  | some f =>
    have hid : (f.id == v) = true :=
      List.findIdx_of_getElem?_eq_some (p := fun f : TrackedFeat F => f.id == v) h
    have hid2 : f.id = v := by simpa using hid
    cases he : excl f.pt with
    | false =>
      left
      exact ⟨f, rfl, hid2, he, by simp [matchStep, h, hid2, he]⟩
    | true =>
      right; left
      exact ⟨f, rfl, hid2, he, by simp [matchStep, h, hid2, he]⟩

/-- The offset returned by the scan of `std::max_element` lies in the scanned
range. -/
theorem maxElementFrom_lt [LT F] [DecidableRel fun a b : F => a < b] :
    ∀ (xs : List F) (largest : Nat) (lv : F) (cur : Nat), largest < cur →
      maxElementFrom largest lv cur xs < cur + xs.length
  | [], largest, lv, cur, h => by simpa [maxElementFrom] using h
  | x :: xs, largest, lv, cur, h => by
    unfold maxElementFrom
    split
    · have := maxElementFrom_lt xs cur x (cur + 1) (Nat.lt_succ_self cur)
      simp only [List.length_cons]
      omega
    · have := maxElementFrom_lt xs largest lv (cur + 1) (Nat.lt_succ_of_lt h)
      simp only [List.length_cons]
      omega

/-- On a non-empty range `std::max_element` returns a valid offset. -/
theorem max_element_lt_length [LT F] [DecidableRel fun a b : F => a < b]
    (l : List F) (h : l ≠ []) : max_element l < l.length := by
  cases l with
  | nil => exact absurd rfl h
  | cons x xs =>
    have := maxElementFrom_lt xs 0 x 1 Nat.zero_lt_one
    simp only [max_element, List.length_cons]
    omega

/-- The two outcomes of one body of the second loop on a non-empty pool: the
entry at the offset of the largest response is kept or skipped, and erased
either way. -/
theorem fillStep_cases [LT F] [DecidableRel fun a b : F => a < b]
    (excl : Point2f F → Bool) (s : FeatSel F) (h : s.pool ≠ []) :
    ∃ f, s.pool[max_element (s.pool.map fun f => f.response)]? = some f ∧
      ((excl f.pt = false ∧ fillStep excl s =
          { gfeats_ := s.gfeats_ ++ [f.pt], gfeats_idx_ := s.gfeats_idx_ ++ [f.id],
            deleted_feats := s.deleted_feats, n := s.n + 1,
            pool := s.pool.eraseIdx (max_element (s.pool.map fun f => f.response)) }) ∨
       (excl f.pt = true ∧ fillStep excl s =
          { s with pool := s.pool.eraseIdx (max_element (s.pool.map fun f => f.response)) })) := by
  have hne : (s.pool.map fun f => f.response) ≠ [] := by simpa using h
  have hlt := max_element_lt_length _ hne
  rw [List.length_map] at hlt
  refine ⟨s.pool[max_element (s.pool.map fun f => f.response)], List.getElem?_eq_getElem hlt, ?_⟩
  cases he : excl (s.pool[max_element (s.pool.map fun f => f.response)]).pt with
  | false => left; exact ⟨rfl, by simp [fillStep, List.getElem?_eq_getElem hlt, he]⟩
  | true => right; exact ⟨rfl, by simp [fillStep, List.getElem?_eq_getElem hlt, he]⟩

/-- The invariant holds when the loops start. -/
theorem SelInv_initSel [Add F] [IntCast F] (excl : Point2f F → Bool) (rows : Int)
    (tracked : List (TrackedFeat F)) :
    SelInv excl (tracked.map (shiftFeat rows)) (initSel rows tracked) :=
  ⟨[], rfl, rfl, rfl, by simp, by simpa [initSel] using List.Subperm.refl _⟩

/-- Keeping a pool entry that lies outside the exclusion zones preserves the
invariant. -/
theorem SelInv_keep {excl : Point2f F → Bool} {P0 : List (TrackedFeat F)} {s : FeatSel F}
    (h : SelInv excl P0 s) {idx : Nat} {f : TrackedFeat F} (hf : s.pool[idx]? = some f)
    (he : excl f.pt = false) (d : List Nat) :
    SelInv excl P0
      { gfeats_ := s.gfeats_ ++ [f.pt], gfeats_idx_ := s.gfeats_idx_ ++ [f.id],
        deleted_feats := d, n := s.n + 1, pool := s.pool.eraseIdx idx } := by
  obtain ⟨kept, h1, h2, h3, h4, h5⟩ := h
  refine ⟨kept ++ [f], by simp [h1], by simp [h2], by simp [h3], ?_, ?_⟩
  · intro g hg
    rcases List.mem_append.mp hg with hg | hg
    · exact h4 g hg
    · simp at hg; subst hg; exact he
  · have hp : (kept ++ [f] ++ s.pool.eraseIdx idx).Perm (kept ++ s.pool) := by
      rw [List.append_assoc]
      exact List.Perm.append_left kept (perm_cons_eraseIdx_of_getElem? s.pool idx f hf).symm
    exact hp.subperm.trans h5

/-- Erasing a pool entry and extending the deleted list preserves the
invariant. -/
theorem SelInv_drop {excl : Point2f F → Bool} {P0 : List (TrackedFeat F)} {s : FeatSel F}
    (h : SelInv excl P0 s) (idx : Nat) (d : List Nat) :
    SelInv excl P0 { s with deleted_feats := d, pool := s.pool.eraseIdx idx } := by
  obtain ⟨kept, h1, h2, h3, h4, h5⟩ := h
  refine ⟨kept, h1, h2, h3, h4, ?_⟩
  exact (List.Sublist.append (List.Sublist.refl kept) (List.eraseIdx_sublist s.pool idx)).subperm.trans h5

/-- One body of the first loop preserves the invariant. -/
theorem SelInv_matchStep {excl : Point2f F → Bool} {P0 : List (TrackedFeat F)} {s : FeatSel F}
    (h : SelInv excl P0 s) (v : Int) (i : Nat) : SelInv excl P0 (matchStep excl v i s) := by
  rcases matchStep_cases excl v i s with ⟨f, hf, _, he, heq⟩ | ⟨f, _, _, _, heq⟩ | ⟨_, heq⟩
  · rw [heq]; exact SelInv_keep h hf he _
  · rw [heq]; exact SelInv_drop h _ _
  · rw [heq]
    have := SelInv_drop h s.pool.length (s.deleted_feats ++ [i])
    rwa [List.eraseIdx_of_length_le (le_refl _)] at this

/-- The first loop preserves the invariant. -/
theorem SelInv_matchLoop {excl : Point2f F → Bool} {P0 : List (TrackedFeat F)} (q : Int) :
    ∀ (prev : List Int) (i : Nat) (s : FeatSel F), SelInv excl P0 s →
      SelInv excl P0 (matchLoop excl q prev i s)
  | [], _, _, h => h
  | v :: rest, i, s, h => by
    unfold matchLoop
    simp only
    split
    · exact SelInv_matchStep h v i
    · exact SelInv_matchLoop q rest (i + 1) _ (SelInv_matchStep h v i)

/-- One body of the second loop preserves the invariant. -/
theorem SelInv_fillStep [LT F] [DecidableRel fun a b : F => a < b]
    {excl : Point2f F → Bool} {P0 : List (TrackedFeat F)} {s : FeatSel F}
    (h : SelInv excl P0 s) (hne : s.pool ≠ []) : SelInv excl P0 (fillStep excl s) := by
  obtain ⟨f, hf, ⟨he, heq⟩ | ⟨_, heq⟩⟩ := fillStep_cases excl s hne
  · rw [heq]; exact SelInv_keep h hf he _
  · rw [heq]; exact SelInv_drop h _ _

/-- The second loop preserves the invariant. -/
theorem SelInv_fillLoop [LT F] [DecidableRel fun a b : F => a < b]
    {excl : Point2f F → Bool} {P0 : List (TrackedFeat F)} (q : Int) :
    ∀ (fuel : Nat) (s : FeatSel F), SelInv excl P0 s → SelInv excl P0 (fillLoop excl q fuel s)
  | 0, _, h => h
  | fuel + 1, s, h => by
    unfold fillLoop
    split
    · rename_i hc
      have hne : s.pool ≠ [] := by
        intro hnil
        rw [hnil] at hc
        simp at hc
      exact SelInv_fillLoop q fuel _ (SelInv_fillStep h hne)
    · exact h

/-- The invariant holds for the result of both loops. -/
theorem SelInv_selectFeats [Add F] [IntCast F] [LT F] [DecidableRel fun a b : F => a < b]
    (excl : Point2f F → Bool) (rows : Int) (tracked : List (TrackedFeat F))
    (prev : List Int) (q : Int) :
    SelInv excl (tracked.map (shiftFeat rows)) (selectFeats excl rows tracked prev q) :=
  SelInv_fillLoop q _ _ (SelInv_matchLoop q prev 0 _ (SelInv_initSel excl rows tracked))

/-- One body of the first loop raises `n` by at most one and never lowers
it. -/
theorem matchStep_n (excl : Point2f F → Bool) (v : Int) (i : Nat) (s : FeatSel F) :
    s.n ≤ (matchStep excl v i s).n ∧ (matchStep excl v i s).n ≤ s.n + 1 := by
  rcases matchStep_cases excl v i s with ⟨f, _, _, _, heq⟩ | ⟨f, _, _, _, heq⟩ | ⟨_, heq⟩ <;>
    (rw [heq]; simp)

/-- The first loop leaves `n` at most `max_feats`, or at most one above its
entry value when that is already at or beyond `max_feats - 1`. -/
theorem matchLoop_n_le (excl : Point2f F → Bool) (q : Int) :
    ∀ (prev : List Int) (i : Nat) (s : FeatSel F),
      (matchLoop excl q prev i s).n ≤ max q (s.n + 1)
  | [], _, s => by simp [matchLoop]
  | v :: rest, i, s => by
    have h := matchStep_n excl v i s
    unfold matchLoop
    simp only
    split
    · exact le_max_of_le_right h.2
    · rename_i hc
      have ih := matchLoop_n_le excl q rest (i + 1) (matchStep excl v i s)
      have hlt : (matchStep excl v i s).n + 1 ≤ q := by omega
      exact le_trans ih (max_le (le_max_left _ _) (le_max_of_le_left hlt))

/-- The second loop leaves `n` at most `max_feats`, or unchanged. -/
theorem fillLoop_n_le [LT F] [DecidableRel fun a b : F => a < b]
    (excl : Point2f F → Bool) (q : Int) :
    ∀ (fuel : Nat) (s : FeatSel F), (fillLoop excl q fuel s).n ≤ max q s.n
  | 0, s => by simp [fillLoop]
  | fuel + 1, s => by
    unfold fillLoop
    split
    · rename_i hc
      have hne : s.pool ≠ [] := by
        intro hnil
        rw [hnil] at hc
        simp at hc
      have ih := fillLoop_n_le excl q fuel (fillStep excl s)
      have hstep : (fillStep excl s).n ≤ s.n + 1 := by
        obtain ⟨f, _, ⟨_, heq⟩ | ⟨_, heq⟩⟩ := fillStep_cases excl s hne
        · rw [heq]
        · rw [heq]
          simp
      have : (fillStep excl s).n ≤ q := by omega
      exact le_trans ih (max_le (le_max_left _ _) (le_max_of_le_left this))
    · exact le_max_right _ _

/-- One body of the second loop on a non-empty pool erases exactly one pool
entry. -/
theorem fillStep_pool_length [LT F] [DecidableRel fun a b : F => a < b]
    (excl : Point2f F → Bool) (s : FeatSel F) (hne : s.pool ≠ []) :
    (fillStep excl s).pool.length + 1 = s.pool.length := by
  have hne2 : (s.pool.map fun f => f.response) ≠ [] := by simpa using hne
  have hlt := max_element_lt_length _ hne2
  rw [List.length_map] at hlt
  obtain ⟨f, _, ⟨_, heq⟩ | ⟨_, heq⟩⟩ := fillStep_cases excl s hne <;>
    rw [heq] <;> simp only [List.length_eraseIdx, hlt, if_true] <;> omega

/-- With as much fuel as the pool has entries the second loop ends because its
guard fails: the quota is reached or the pool is exhausted. -/
theorem fillLoop_exit [LT F] [DecidableRel fun a b : F => a < b]
    (excl : Point2f F → Bool) (q : Int) :
    ∀ (fuel : Nat) (s : FeatSel F), s.pool.length ≤ fuel →
      ¬ ((fillLoop excl q fuel s).n < q ∧ (fillLoop excl q fuel s).pool.length > 0)
  | 0, s, h => by
    simp only [fillLoop]
    omega
  | fuel + 1, s, h => by
    unfold fillLoop
    split
    · rename_i hc
      have hne : s.pool ≠ [] := by
        intro hnil
        rw [hnil] at hc
        simp at hc
      have := fillStep_pool_length excl s hne
      exact fillLoop_exit excl q fuel (fillStep excl s) (by omega)
    · rename_i hc
      exact hc

/-- One body of the first loop only appends to `deleted_feats` and only erases
from the pool. -/
theorem matchStep_mono (excl : Point2f F → Bool) (v : Int) (i : Nat) (s : FeatSel F) :
    (∀ x ∈ s.deleted_feats, x ∈ (matchStep excl v i s).deleted_feats) ∧
    (∀ f ∈ (matchStep excl v i s).pool, f ∈ s.pool) := by
  rcases matchStep_cases excl v i s with ⟨f, _, _, _, heq⟩ | ⟨f, _, _, _, heq⟩ | ⟨_, heq⟩ <;>
    rw [heq] <;> refine ⟨fun x hx => ?_, fun g hg => ?_⟩ <;>
    first
      | exact hx
      | exact List.mem_append_left _ hx
      | exact List.mem_of_mem_eraseIdx hg
      | exact hg

/-- With the fuel that `selectFeats` passes, the second loop of
`preprocessFeats` ends because its guard fails. -/
theorem selectFeats_exit [Add F] [IntCast F] [LT F] [DecidableRel fun a b : F => a < b]
    (excl : Point2f F → Bool) (rows : Int) (tracked : List (TrackedFeat F))
    (prev : List Int) (q : Int) :
    ¬ ((selectFeats excl rows tracked prev q).n < q ∧
        (selectFeats excl rows tracked prev q).pool.length > 0) :=
  fillLoop_exit excl q _ _ (le_refl _)

/-- The first loop visits at most all positions. -/
theorem matchScanned_le_length (excl : Point2f F → Bool) (q : Int) :
    ∀ (prev : List Int) (i : Nat) (s : FeatSel F),
      matchScanned excl q prev i s ≤ prev.length
  | [], _, _ => by simp [matchScanned]
  | v :: rest, i, s => by
    have ih := matchScanned_le_length excl q rest (i + 1) (matchStep excl v i s)
    unfold matchScanned
    simp only [List.length_cons]
    split <;> omega

/-- When the first loop ends with `n` below the quota it has visited every
position. -/
theorem matchScanned_eq_length (excl : Point2f F → Bool) (q : Int) :
    ∀ (prev : List Int) (i : Nat) (s : FeatSel F),
      (matchLoop excl q prev i s).n < q → matchScanned excl q prev i s = prev.length
  | [], _, _, _ => by simp [matchScanned]
  | v :: rest, i, s, h => by
    unfold matchLoop at h
    unfold matchScanned
    simp only [List.length_cons] at h ⊢
    split
    · rename_i hc
      rw [if_pos hc] at h
      omega
    · rename_i hc
      rw [if_neg hc] at h
      have := matchScanned_eq_length excl q rest (i + 1) (matchStep excl v i s) h
      omega

/-- Under the invariant the feature list, the identifier list and `n` agree in
length. -/
theorem SelInv.lengths {excl : Point2f F → Bool} {P0 : List (TrackedFeat F)} {s : FeatSel F}
    (h : SelInv excl P0 s) :
    s.gfeats_.length = s.gfeats_idx_.length ∧ s.n = (s.gfeats_idx_.length : Int) := by
  obtain ⟨kept, h1, h2, h3, _, _⟩ := h
  simp [h1, h2, h3]

/-- Under the invariant, pairwise distinct pool identifiers give pairwise
distinct kept identifiers. -/
theorem SelInv.nodup_ids {excl : Point2f F → Bool} {P0 : List (TrackedFeat F)} {s : FeatSel F}
    (h : SelInv excl P0 s) (hnd : (P0.map fun f => f.id).Nodup) : s.gfeats_idx_.Nodup := by
  obtain ⟨kept, _, h2, _, _, l, hperm, hsub⟩ := h
  have h1 : (l.map fun f => f.id).Nodup := hnd.sublist (hsub.map _)
  have h3 : ((kept ++ s.pool).map fun f => f.id).Nodup := ((hperm.map _).nodup_iff).mp h1
  rw [List.map_append] at h3
  rw [h2]
  exact h3.of_append_left

/-- The body with the read of line 195 has a result when the identifier is in
the pool, and the result is that of `matchStep`. -/
theorem matchStepChecked_of_mem (excl : Point2f F → Bool) (v : Int) (i : Nat) (s : FeatSel F)
    (h : ∃ f ∈ s.pool, f.id = v) :
    matchStepChecked excl v i s = some (matchStep excl v i s) := by
  obtain ⟨g, hg, hgv⟩ := h
  rcases matchStep_cases excl v i s with ⟨f, hf, _⟩ | ⟨f, hf, _⟩ | ⟨habs, _⟩
  · simp [matchStepChecked, hf]
  · simp [matchStepChecked, hf]
  · exact absurd hgv (habs g hg)

/-- The body with the read of line 195 has no result when the identifier is
not in the pool: `std::find` returns `end()` and line 195 dereferences it. -/
theorem matchStepChecked_of_absent (excl : Point2f F → Bool) (v : Int) (i : Nat)
    (s : FeatSel F) (h : ∀ f ∈ s.pool, f.id ≠ v) :
    matchStepChecked excl v i s = none := by
  cases hp : s.pool[findFeat s.pool v]? with
  | none => simp [matchStepChecked, hp]
  | some f =>
    have hid : (f.id == v) = true :=
      List.findIdx_of_getElem?_eq_some (p := fun f : TrackedFeat F => f.id == v) hp
    exact absurd (by simpa using hid) (h f (List.getElem?_mem hp))

/-- A result of the body with the read of line 195 is the result of
`matchStep`, and the identifier was in the pool. -/
theorem matchStepChecked_some (excl : Point2f F → Bool) (v : Int) (i : Nat)
    (s s1 : FeatSel F) (h : matchStepChecked excl v i s = some s1) :
    s1 = matchStep excl v i s ∧ ∃ f ∈ s.pool, f.id = v := by
  by_cases hm : ∃ f ∈ s.pool, f.id = v
  · rw [matchStepChecked_of_mem excl v i s hm] at h
    exact ⟨(Option.some.inj h).symm, hm⟩
  · push_neg at hm
    rw [matchStepChecked_of_absent excl v i s hm] at h
    exact Option.noConfusion h

/-- A result of the first loop with the read of line 195 is the result of
`matchLoop`. -/
theorem matchLoopChecked_eq (excl : Point2f F → Bool) (q : Int) :
    ∀ (prev : List Int) (i : Nat) (s s2 : FeatSel F),
      matchLoopChecked excl q prev i s = some s2 → s2 = matchLoop excl q prev i s
  | [], _, s, s2, h => by
    simp only [matchLoopChecked] at h
    exact (Option.some.inj h).symm
  | v :: rest, i, s, s2, h => by
    unfold matchLoopChecked at h
    cases hs : matchStepChecked excl v i s with
    | none =>
      rw [hs] at h
      exact Option.noConfusion h
    | some s1 =>
      rw [hs] at h
      obtain ⟨h1, _⟩ := matchStepChecked_some excl v i s s1 hs
      subst h1
      unfold matchLoop
      simp only at h ⊢
      split
      · rename_i hc
        rw [if_pos hc] at h
        exact (Option.some.inj h).symm
      · rename_i hc
        rw [if_neg hc] at h
        exact matchLoopChecked_eq excl q rest (i + 1) _ s2 h

/-- The first loop with the read of line 195 has no result when it visits a
position whose identifier no pool entry carries. -/
theorem matchLoopChecked_of_absent (excl : Point2f F → Bool) (q : Int) :
    ∀ (prev : List Int) (i0 : Nat) (s : FeatSel F) (k : Nat) (v : Int),
      k < matchScanned excl q prev i0 s → prev[k]? = some v →
      (∀ f ∈ s.pool, f.id ≠ v) → matchLoopChecked excl q prev i0 s = none
  | [], _, _, k, v, hk, _, _ => by simp [matchScanned] at hk
  | w :: rest, i0, s, 0, v, _, hv, hp => by
    simp at hv
    subst hv
    unfold matchLoopChecked
    rw [matchStepChecked_of_absent excl w i0 s hp]
  | w :: rest, i0, s, k + 1, v, hk, hv, hp => by
    simp at hv
    unfold matchLoopChecked
    cases hs : matchStepChecked excl w i0 s with
    | none => rfl
    | some s1 =>
      obtain ⟨h1, _⟩ := matchStepChecked_some excl w i0 s s1 hs
      subst h1
      unfold matchScanned at hk
      simp only at hk ⊢
      split
      · rename_i hc
        rw [if_pos hc] at hk
        omega
      · rename_i hc
        rw [if_neg hc] at hk
        exact matchLoopChecked_of_absent excl q rest (i0 + 1) (matchStep excl w i0 s) k v
          (by omega) hv (fun f hf => hp f ((matchStep_mono excl w i0 s).2 f hf))

/-- One body of the first loop erases from the pool at most the entry that
carries the identifier of the position. -/
theorem matchStep_pool_keeps (excl : Point2f F → Bool) (v : Int) (i : Nat) (s : FeatSel F)
    (f : TrackedFeat F) (hf : f ∈ s.pool) (hne : f.id ≠ v) :
    f ∈ (matchStep excl v i s).pool := by
  rcases matchStep_cases excl v i s with ⟨g, hg, hid, _, heq⟩ | ⟨g, hg, hid, _, heq⟩ | ⟨_, heq⟩
  · rw [heq]
    have hp := (perm_cons_eraseIdx_of_getElem? s.pool _ g hg).mem_iff.mp hf
    rcases List.mem_cons.mp hp with h | h
    · exact absurd (h ▸ hid) hne
    · exact h
  · rw [heq]
    have hp := (perm_cons_eraseIdx_of_getElem? s.pool _ g hg).mem_iff.mp hf
    rcases List.mem_cons.mp hp with h | h
    · exact absurd (h ▸ hid) hne
    · exact h
  · rw [heq]
    exact hf

/-- The first loop with the read of line 195 has a result when the previous
identifiers are pairwise distinct and each of them is in the pool. -/
theorem matchLoopChecked_of_mem (excl : Point2f F → Bool) (q : Int) :
    ∀ (prev : List Int) (i : Nat) (s : FeatSel F), prev.Nodup →
      (∀ v ∈ prev, ∃ f ∈ s.pool, f.id = v) →
      matchLoopChecked excl q prev i s = some (matchLoop excl q prev i s)
  | [], _, _, _, _ => rfl
  | w :: rest, i, s, hnd, hmem => by
    unfold matchLoopChecked matchLoop
    rw [matchStepChecked_of_mem excl w i s (hmem w (List.mem_cons_self _ _))]
    simp only
    split
    · rfl
    · have hnd2 := List.nodup_cons.mp hnd
      refine matchLoopChecked_of_mem excl q rest (i + 1) _ hnd2.2 ?_
      intro v hv
      obtain ⟨f, hf, hfv⟩ := hmem v (List.mem_cons_of_mem _ hv)
      have hne : f.id ≠ w := by
        intro h
        rw [hfv] at h
        exact hnd2.1 (h ▸ hv)
      exact ⟨f, matchStep_pool_keeps excl w i s f hf hne, hfv⟩

end FeatureAssociationLemmas

end people

/-! ## Theorems about `preprocessFeats` -/

namespace people

section FeatureAssociationClaims

variable {F : Type}

/-- Shifting the rows of a tracked feature leaves its identifier alone. -/
theorem shiftFeat_id [Add F] [IntCast F] (rows : Int) (f : TrackedFeat F) :
    (shiftFeat rows f).id = f.id := rfl

/-- For every quota the feature list left by `preprocessFeats` has at most
`max(max_feats, 1)` entries; in particular at most `max_feats` when
`max_feats ≥ 1`. -/
theorem preprocessFeats_length_le [Add F] [IntCast F] [LT F]
    [DecidableRel fun a b : F => a < b]
    (groupRectangles : List Rect → List Rect) (in_any_rect : List Rect → Point2f F → Bool)
    (tracked : List (TrackedFeat F)) (mgr : ObservationManager F)
    (prev : List Int) (q : Int) (targets : List Rect) :
    ((preprocessFeats groupRectangles in_any_rect tracked mgr prev q targets).1.gfeats_.length
        : Int) ≤ max q 1 ∧
    ((preprocessFeats groupRectangles in_any_rect tracked mgr prev q targets).1.gfeats_idx_.length
        : Int) ≤ max q 1 := by
  have hinv := SelInv_selectFeats
    (in_any_rect (groupRectangles (duplicatedBoxes targets (getDetections mgr))))
    mgr.img_mono_rows tracked prev q
  have hl := hinv.lengths
  have h1 := matchLoop_n_le
    (in_any_rect (groupRectangles (duplicatedBoxes targets (getDetections mgr)))) q prev 0
    (initSel mgr.img_mono_rows tracked)
  have h2 := fillLoop_n_le
    (in_any_rect (groupRectangles (duplicatedBoxes targets (getDetections mgr)))) q
    (matchPhase (in_any_rect (groupRectangles (duplicatedBoxes targets (getDetections mgr))))
      mgr.img_mono_rows tracked prev q).pool.length
    (matchPhase (in_any_rect (groupRectangles (duplicatedBoxes targets (getDetections mgr))))
      mgr.img_mono_rows tracked prev q)
  have h0 : (initSel mgr.img_mono_rows tracked).n = 0 := rfl
  rw [h0] at h1
  have h3 : (selectFeats
      (in_any_rect (groupRectangles (duplicatedBoxes targets (getDetections mgr))))
      mgr.img_mono_rows tracked prev q).n ≤ max q 1 := by
    refine le_trans h2 (max_le (le_max_left _ _) ?_)
    simpa [matchPhase] using h1
  simp only [preprocessFeats]
  rw [hl.1]
  rw [hl.2] at h3
  exact ⟨h3, h3⟩

/-- C1 (behaviour of the code at quota 0): with `max_feats = 0` and one
previous identifier that is tracked outside every exclusion zone, the first
loop runs its body before the quota test, so `preprocessFeats` leaves one
feature and one identifier in the manager, more than the quota. -/
theorem preprocessFeats_quota_zero_keeps_one :
    (preprocessFeats groupIdentical inAnyRectInt [trackedAt 1 10 10 5]
        (intManager [] 480) [1] 0 []).1.gfeats_ = [{ x := 10, y := 250 }] ∧
    (preprocessFeats groupIdentical inAnyRectInt [trackedAt 1 10 10 5]
        (intManager [] 480) [1] 0 []).1.gfeats_idx_ = [1] := by
  decide

/-- A result of `preprocessFeatsChecked` is the result of `preprocessFeats`:
on a call whose first loop never dereferences the end iterator the two
embeddings of the method agree. -/
theorem preprocessFeatsChecked_eq [Add F] [IntCast F] [LT F]
    [DecidableRel fun a b : F => a < b]
    (groupRectangles : List Rect → List Rect) (in_any_rect : List Rect → Point2f F → Bool)
    (tracked : List (TrackedFeat F)) (mgr : ObservationManager F)
    (prev : List Int) (q : Int) (targets : List Rect)
    (r : ObservationManager F × List Nat)
    (h : preprocessFeatsChecked groupRectangles in_any_rect tracked mgr prev q targets = some r) :
    r = preprocessFeats groupRectangles in_any_rect tracked mgr prev q targets := by
  unfold preprocessFeatsChecked at h
  simp only at h
  cases hs : matchLoopChecked
      (in_any_rect (groupRectangles (duplicatedBoxes targets (getDetections mgr)))) q prev 0
      (initSel mgr.img_mono_rows tracked) with
  | none =>
    rw [hs] at h
    exact Option.noConfusion h
  | some s1 =>
    rw [hs] at h
    have h1 := matchLoopChecked_eq _ q prev 0 _ s1 hs
    subst h1
    exact (Option.some.inj h).symm

/-- The method returns, with the result of `preprocessFeats`, on every call
whose previous identifiers are pairwise distinct and all carried by pool
entries: no lookup of the first loop ends at `end()`. -/
theorem preprocessFeatsChecked_of_mem [Add F] [IntCast F] [LT F]
    [DecidableRel fun a b : F => a < b]
    (groupRectangles : List Rect → List Rect) (in_any_rect : List Rect → Point2f F → Bool)
    (tracked : List (TrackedFeat F)) (mgr : ObservationManager F)
    (prev : List Int) (q : Int) (targets : List Rect)
    (hprev : prev.Nodup) (hmem : ∀ v ∈ prev, ∃ f ∈ tracked, f.id = v) :
    preprocessFeatsChecked groupRectangles in_any_rect tracked mgr prev q targets =
      some (preprocessFeats groupRectangles in_any_rect tracked mgr prev q targets) := by
  have h := matchLoopChecked_of_mem
    (in_any_rect (groupRectangles (duplicatedBoxes targets (getDetections mgr)))) q prev 0
    (initSel mgr.img_mono_rows tracked) hprev
    (by
      intro v hv
      obtain ⟨f, hf, hfv⟩ := hmem v hv
      exact ⟨shiftFeat mgr.img_mono_rows f, by simpa [initSel] using ⟨f, hf, rfl⟩, hfv⟩)
  unfold preprocessFeatsChecked
  simp only
  rw [h]
  rfl

/-- The method has no result when its first loop visits a position whose
identifier no entry of the tracked pool carries: the lookup of that position,
or of an earlier one, ends at `end()` and line 195 dereferences it. -/
theorem preprocessFeatsChecked_of_absent [Add F] [IntCast F] [LT F]
    [DecidableRel fun a b : F => a < b]
    (groupRectangles : List Rect → List Rect) (in_any_rect : List Rect → Point2f F → Bool)
    (tracked : List (TrackedFeat F)) (mgr : ObservationManager F)
    (prev : List Int) (q : Int) (targets : List Rect) (i : Nat) (v : Int)
    (hi : i < scannedPositions groupRectangles in_any_rect tracked mgr prev q targets)
    (hv : prev[i]? = some v) (habs : ∀ f ∈ tracked, f.id ≠ v) :
    preprocessFeatsChecked groupRectangles in_any_rect tracked mgr prev q targets = none := by
  have h := matchLoopChecked_of_absent
    (in_any_rect (groupRectangles (duplicatedBoxes targets (getDetections mgr)))) q prev 0
    (initSel mgr.img_mono_rows tracked) i v hi hv
    (by
      intro f hf hfv
      simp only [initSel, List.mem_map] at hf
      obtain ⟨g, hg, rfl⟩ := hf
      exact absurd hfv (habs g hg))
  unfold preprocessFeatsChecked
  simp only
  rw [h]

/-- With quota 1, previous identifiers `[1, 2]` and a pool that tracks only
identifier 1, the scan keeps identifier 1 and stops after position 0 on
`if(n >= max_feats) break;`: position 1, whose identifier 2 is not in the pool,
is never looked up, the method returns, and the dropped-index list is empty. -/
theorem preprocessFeatsChecked_stops_on_quota :
    ([1, 2] : List Int)[1]? = some 2 ∧
    (∀ f ∈ [trackedAt 1 10 10 5], f.id ≠ 2) ∧
    (preprocessFeatsChecked groupIdentical inAnyRectInt [trackedAt 1 10 10 5]
        (intManager [] 480) [1, 2] 1 []).map (fun r => r.2) = some [] :=
  ⟨by decide, by decide, rfl⟩

/-- C2 (behaviour of the code on an absent identifier): with an empty tracked
pool, previous identifiers `[1]` and quota 1, position 0 holds an identifier
that no pool entry carries.  `std::find` returns `end()`, line 195 dereferences
it, and `preprocessFeatsChecked` has no result: the call does not return a
dropped-index list that contains position 0. -/
theorem preprocessFeatsChecked_absent_undefined :
    ([1] : List Int)[0]? = some 1 ∧
    (∀ f ∈ ([] : List (TrackedFeat Int)), f.id ≠ 1) ∧
    preprocessFeatsChecked groupIdentical inAnyRectInt [] (intManager [] 480) [1] 1 [] = none :=
  ⟨by decide, by decide, rfl⟩

/-- On every call on which the method returns, the feature list and the
identifier list of the manager have equal length, and when the identifiers of
the tracked pool are pairwise distinct no identifier occurs twice in the
identifier list. -/
theorem preprocessFeatsChecked_lengths [Add F] [IntCast F] [LT F]
    [DecidableRel fun a b : F => a < b]
    (groupRectangles : List Rect → List Rect) (in_any_rect : List Rect → Point2f F → Bool)
    (tracked : List (TrackedFeat F)) (mgr : ObservationManager F)
    (prev : List Int) (q : Int) (targets : List Rect)
    (r : ObservationManager F × List Nat)
    (hr : preprocessFeatsChecked groupRectangles in_any_rect tracked mgr prev q targets = some r) :
    r.1.gfeats_.length = r.1.gfeats_idx_.length ∧
    ((tracked.map fun f => f.id).Nodup → r.1.gfeats_idx_.Nodup) := by
  have he := preprocessFeatsChecked_eq groupRectangles in_any_rect tracked mgr prev q targets r hr
  subst he
  have hinv := SelInv_selectFeats
    (in_any_rect (groupRectangles (duplicatedBoxes targets (getDetections mgr))))
    mgr.img_mono_rows tracked prev q
  refine ⟨hinv.lengths.1, fun hnd => hinv.nodup_ids ?_⟩
  simpa [List.map_map, Function.comp_def, shiftFeat_id] using hnd

/-- C4 (behaviour of the code on a repeated previous identifier): pool
identifiers 1, 2, 3, pairwise distinct, previous identifiers `[3, 3]`, quota 5,
no exclusion zone.  The body of `preprocessFeats` for position 0 finds
identifier 3 at offset 2, the last of the pool, keeps it and erases it, which
leaves the pool identifiers `[1, 2]`.  At position 1 no pool entry carries 3,
`std::find` returns `end()`, line 195 dereferences it, and
`preprocessFeatsChecked` has no result. -/
theorem preprocessFeatsChecked_repeat_undefined :
    (([trackedAt 1 10 10 5, trackedAt 2 100 10 6, trackedAt 3 50 50 7].map
        fun f => f.id).Nodup) ∧
    findFeat (initSel 480 [trackedAt 1 10 10 5, trackedAt 2 100 10 6, trackedAt 3 50 50 7]).pool
        3 = 2 ∧
    (matchStep (inAnyRectInt []) 3 0
        (initSel 480 [trackedAt 1 10 10 5, trackedAt 2 100 10 6,
          trackedAt 3 50 50 7])).gfeats_idx_ = [3] ∧
    ((matchStep (inAnyRectInt []) 3 0
        (initSel 480 [trackedAt 1 10 10 5, trackedAt 2 100 10 6,
          trackedAt 3 50 50 7])).pool.map fun f => f.id) = [1, 2] ∧
    preprocessFeatsChecked groupIdentical inAnyRectInt
        [trackedAt 1 10 10 5, trackedAt 2 100 10 6, trackedAt 3 50 50 7]
        (intManager [] 480) [3, 3] 5 [] = none :=
  ⟨by decide, by decide, by decide, by decide, rfl⟩

end FeatureAssociationClaims

end people

/-! ## Theorems about the node registry and the confidence functions -/

namespace people

section RegistryAndConfidence

variable {F : Type}

/-- C10: `getObservationNode` returns `NULL` exactly when no registered node
has the requested type; a returned node has the requested type and stands in
`nodes_` before every other node of that type; `insertObservationNode`
appends, so a lookup that succeeded keeps its result after later insertions,
and a lookup that failed finds the inserted node exactly when its type is the
requested one. -/
theorem getObservationNode_spec (mgr : ObservationManager F) (type : String) :
    (getObservationNode mgr type = none ↔ ∀ nd ∈ mgr.nodes_, nd.getType ≠ type) ∧
    (∀ nd, getObservationNode mgr type = some nd →
      nd.getType = type ∧
      ∃ i, mgr.nodes_[i]? = some nd ∧
        ∀ (j : Nat) (m : ObservationNode F), j < i → mgr.nodes_[j]? = some m →
          m.getType ≠ type) ∧
    (∀ node, (insertObservationNode mgr node).nodes_ = mgr.nodes_ ++ [node]) ∧
    (∀ node nd, getObservationNode mgr type = some nd →
      getObservationNode (insertObservationNode mgr node) type = some nd) ∧
    (∀ node, getObservationNode mgr type = none →
      getObservationNode (insertObservationNode mgr node) type =
        if node.getType = type then some node else none) := by
  refine ⟨?_, ?_, fun _ => rfl, ?_, ?_⟩
  · simp only [getObservationNode, List.find?_eq_none, beq_iff_eq]
    constructor
    · intro h nd hnd heq
      exact h nd hnd heq.symm
    · intro h nd hnd heq
      exact h nd hnd heq.symm
  · intro nd h
    simp only [getObservationNode] at h
    rw [List.find?_eq_some] at h
    obtain ⟨hp, as, bs, hsplit, hbefore⟩ := h
    refine ⟨(by simpa using hp : type = nd.getType).symm, as.length, ?_, ?_⟩
    · rw [hsplit, List.getElem?_append_right (le_refl _)]
      simp
    · intro j m hj hm heq
      rw [hsplit, List.getElem?_append_left hj] at hm
      have := hbefore m (List.getElem?_mem hm)
      simp [heq] at this
  · intro node nd h
    simp only [getObservationNode] at h
    simp [getObservationNode, insertObservationNode, List.find?_append, h]
  · intro node h
    simp only [getObservationNode] at h
    simp only [getObservationNode, insertObservationNode, List.find?_append, h, Option.none_or,
      List.find?_cons, List.find?_nil]
    by_cases hc : node.getType = type
    · simp [hc]
    · have : (type == node.getType) = false := by
        simpa using fun h : type = node.getType => hc h.symm
      simp [hc, this]

/-- C10, instance: two nodes of type `"hog"` inserted one after the other into
an empty registry; the lookup returns the first and `NULL` for an unknown
type. -/
theorem getObservationNode_spec_witness :
    getObservationNode
        (insertObservationNode
          (insertObservationNode (intManager [] 480)
            { getType := "hog", getConfidence := fun _ => 1, getDetections := [] })
          { getType := "hog", getConfidence := fun _ => 2, getDetections := [] })
        "hog" =
      some { getType := "hog", getConfidence := fun _ => 1, getDetections := [] } ∧
    getObservationNode (intManager [] 480) "hog" = none :=
  ⟨(getObservationNode_spec
      (insertObservationNode (intManager [] 480)
        { getType := "hog", getConfidence := fun _ => 1, getDetections := [] }) "hog").2.2.2.1
      { getType := "hog", getConfidence := fun _ => 2, getDetections := [] }
      { getType := "hog", getConfidence := fun _ => 1, getDetections := [] } rfl,
   (getObservationNode_spec (intManager [] 480) "hog").1.mpr (by simp [intManager])⟩

/-- C6: when the height element (index 1) of the object state is less than
`min_height_` or greater than `max_height_`, `getObjectConfidence` returns the
member `obs_lkhood_out_of_height_` (which the constructor sets to -15.0),
whatever the camera state, the nodes, their detections and the type filter. -/
theorem getObjectConfidence_out_of_height [LT F] [DecidableRel fun a b : F => a < b]
    [Zero F] [Add F] [Mul F]
    (project : CameraState F → ObjectState F → Rect)
    (mgr : ObservationManager F) (obj_state : ObjectState F) (cam_state : CameraState F)
    (type : String)
    (h : obj_state.getElement 1 < mgr.min_height_ ∨ obj_state.getElement 1 > mgr.max_height_) :
    getObjectConfidence project mgr obj_state cam_state type =
      mgr.obs_lkhood_out_of_height_ := by
  unfold getObjectConfidence
  rw [if_pos h]

/-- C6, instance: a manager as constructed (`min_height_ = 1.3`, penalty
`-15.0`) with one node, object height 1.0: the result is -15. -/
theorem getObjectConfidence_out_of_height_witness :
    ((1.0 : ℚ) < 1.3 ∨ (1.0 : ℚ) > 2.3) ∧
    getObjectConfidence (fun _ _ => { x := 0, y := 0, width := 10, height := 20 })
        (insertObservationNode
          (ObservationManager.ctor ObjectType.ObjPerson (1 : ℚ) 1 480 fun _ => 0)
          { getType := "hog", getConfidence := fun _ => 3, getDetections := [] })
        { getElement := fun _ => 1.0 }
        { getStateType := "simplified_camera", getElement := fun _ => 0 } "all" = -15 :=
  ⟨by norm_num,
    (getObjectConfidence_out_of_height _ _ _ _ _ (by
      simp only [insertObservationNode, ObservationManager.ctor]
      norm_num)).trans (by
      simp only [insertObservationNode, ObservationManager.ctor]
      norm_num)⟩

/-- The accumulation `ret += getConfidence(rt)` over all nodes is the start
value plus the sum of the confidences. -/
theorem foldl_confidence_all [LinearOrderedField F] (g : ObservationNode F → F) :
    ∀ (l : List (ObservationNode F)) (a : F),
      l.foldl (fun ret nd => ret + g nd) a = a + (l.map g).sum
  | [], a => by simp
  | nd :: l, a => by
    simp only [List.foldl_cons, List.map_cons, List.sum_cons]
    rw [foldl_confidence_all g l (a + g nd), add_assoc]

/-- The accumulation `ret += getConfidence(rt)` over the nodes of the
requested type is the start value plus the sum over the filtered nodes. -/
theorem foldl_confidence_typed [LinearOrderedField F] (g : ObservationNode F → F)
    (type : String) :
    ∀ (l : List (ObservationNode F)) (a : F),
      l.foldl (fun ret nd => if nd.getType = type then ret + g nd else ret) a =
        a + ((l.filter fun nd => decide (nd.getType = type)).map g).sum
  | [], a => by simp
  | nd :: l, a => by
    simp only [List.foldl_cons]
    rw [foldl_confidence_typed g type l]
    by_cases hc : nd.getType = type
    · simp [hc, List.filter_cons, add_assoc]
    · simp [hc, List.filter_cons]

/-- C7: when the height element of the object state lies in
`[min_height_, max_height_]`, `getObjectConfidence` is `total_weight_` times the
sum of `getConfidence(rt)`, `rt` the camera projection of the object, over all
nodes for the filter `"all"` and over exactly the nodes whose type equals the
filter otherwise; for a filter other than `"all"` that no node has, it is 0. -/
theorem getObjectConfidence_in_height [LinearOrderedField F]
    (project : CameraState F → ObjectState F → Rect)
    (mgr : ObservationManager F) (obj_state : ObjectState F) (cam_state : CameraState F)
    (type : String)
    (h1 : mgr.min_height_ ≤ obj_state.getElement 1)
    (h2 : obj_state.getElement 1 ≤ mgr.max_height_) :
    getObjectConfidence project mgr obj_state cam_state type =
      mgr.total_weight_ *
        ((if type = "all" then mgr.nodes_
          else mgr.nodes_.filter fun nd => decide (nd.getType = type)).map
            fun nd => nd.getConfidence (project cam_state obj_state)).sum ∧
    (type ≠ "all" → (∀ nd ∈ mgr.nodes_, nd.getType ≠ type) →
      getObjectConfidence project mgr obj_state cam_state type = 0) := by
  have hin : ¬ (obj_state.getElement 1 < mgr.min_height_ ∨
      obj_state.getElement 1 > mgr.max_height_) := by
    intro h
    rcases h with h | h
    · exact absurd h1 (not_le.mpr h)
    · exact absurd h2 (not_le.mpr h)
  have hmain : getObjectConfidence project mgr obj_state cam_state type =
      mgr.total_weight_ *
        ((if type = "all" then mgr.nodes_
          else mgr.nodes_.filter fun nd => decide (nd.getType = type)).map
            fun nd => nd.getConfidence (project cam_state obj_state)).sum := by
    unfold getObjectConfidence
    rw [if_neg hin]
    by_cases hall : type = "all"
    · simp only [hall, if_true]
      rw [foldl_confidence_all, zero_add, mul_comm]
    · simp only [hall, if_false]
      rw [foldl_confidence_typed, zero_add, mul_comm]
  refine ⟨hmain, fun hall hno => ?_⟩
  rw [hmain, if_neg hall]
  have : (mgr.nodes_.filter fun nd => decide (nd.getType = type)) = [] := by
    rw [List.filter_eq_nil_iff]
    intro nd hnd
    simpa using hno nd hnd
  rw [this]
  simp

/-- C7, instance: a constructed manager (`total_weight_ = 1.0`) with nodes of
types `"hog"` and `"face"` of confidence 3 and 4, object height 1.7: the
result is 7 for `"all"`. -/
theorem getObjectConfidence_in_height_witness :
    ((1.3 : ℚ) ≤ 1.7 ∧ (1.7 : ℚ) ≤ 2.3) ∧
    getObjectConfidence (fun _ _ => { x := 0, y := 0, width := 10, height := 20 })
        (insertObservationNode
          (insertObservationNode
            (ObservationManager.ctor ObjectType.ObjPerson (1 : ℚ) 1 480 fun _ => 0)
            { getType := "hog", getConfidence := fun _ => 3, getDetections := [] })
          { getType := "face", getConfidence := fun _ => 4, getDetections := [] })
        { getElement := fun _ => 1.7 }
        { getStateType := "simplified_camera", getElement := fun _ => 0 } "all" = 7 :=
  ⟨by norm_num,
    ((getObjectConfidence_in_height
      (fun _ _ => { x := 0, y := 0, width := 10, height := 20 })
      (insertObservationNode
          (insertObservationNode
            (ObservationManager.ctor ObjectType.ObjPerson (1 : ℚ) 1 480 fun _ => 0)
            { getType := "hog", getConfidence := fun _ => 3, getDetections := [] })
          { getType := "face", getConfidence := fun _ => 4, getDetections := [] })
      { getElement := fun _ => 1.7 }
      { getStateType := "simplified_camera", getElement := fun _ => 0 } "all"
      (by simp only [insertObservationNode, ObservationManager.ctor]; norm_num)
      (by simp only [insertObservationNode, ObservationManager.ctor]; norm_num)).1).trans (by
        simp only [insertObservationNode, ObservationManager.ctor]
        norm_num)⟩

/-- C8: with `has_depth_` false (as the constructor leaves it) and a valid
feature index, `getFeatureConfidence` returns a value: -100 when the raw
log-likelihood ratio is not-a-number and the raw value otherwise; since -100 is
not not-a-number, the returned value never is. -/
theorem getFeatureConfidence_not_nan [Add F] [Sub F] [Mul F] [Neg F] [OfScientific F]
    (log_gaussian_prob : F → F → F → F) (isnan : F → Bool)
    (project : CameraState F → FeatureState F → Point3f F)
    (mgr : ObservationManager F) (feat_state : FeatureState F) (feat_idx : Nat)
    (cam_state : CameraState F) (type : String) (obs : Point2f F)
    (hdepth : mgr.has_depth_ = false) (hidx : mgr.gfeats_[feat_idx]? = some obs)
    (h100 : isnan (-100.0) = false) :
    ∃ r, getFeatureConfidence log_gaussian_prob isnan project mgr feat_state
          (feat_idx : Int) cam_state type = some r ∧
      isnan r = false ∧
      r = if isnan (rawFeatureConfidence log_gaussian_prob mgr
              (project cam_state feat_state) obs) = true
          then -100.0
          else rawFeatureConfidence log_gaussian_prob mgr (project cam_state feat_state) obs := by
  have hneg : ¬ ((feat_idx : Int) < 0) := by omega
  unfold getFeatureConfidence
  simp only [hdepth, hneg, Int.toNat_ofNat, hidx, if_false, Bool.false_eq_true]
  cases hn : isnan (rawFeatureConfidence log_gaussian_prob mgr
      (project cam_state feat_state) obs) with
  | true => exact ⟨-100.0, by simp, h100, by simp⟩
  | false => exact ⟨_, by simp, hn, by simp⟩

/-- C8, instance: over rationals extended by a not-a-number value, with zero
standard deviations the raw value is not-a-number and the result is -100. -/
theorem getFeatureConfidence_not_nan_witness :
    nanManager.has_depth_ = false ∧
    nanManager.gfeats_[0]? = some { x := NanRat.val 10, y := NanRat.val 250 } ∧
    NanRat.isnan (-100.0) = false ∧
    NanRat.isnan (rawFeatureConfidence nanLogGaussian nanManager
      { x := NanRat.val 11, y := NanRat.val 251, z := NanRat.val 1 }
      { x := NanRat.val 10, y := NanRat.val 250 }) = true ∧
    ∃ r, getFeatureConfidence nanLogGaussian NanRat.isnan
          (fun _ _ => { x := NanRat.val 11, y := NanRat.val 251, z := NanRat.val 1 })
          nanManager { x_ := NanRat.val 0, y_ := NanRat.val 0, z_ := NanRat.val 5 }
          ((0 : Nat) : Int)
          { getStateType := "simplified_camera", getElement := fun _ => NanRat.val 0 }
          "all" = some r ∧
      NanRat.isnan r = false :=
  ⟨rfl, rfl, rfl, rfl,
    (getFeatureConfidence_not_nan nanLogGaussian NanRat.isnan
      (fun _ _ => { x := NanRat.val 11, y := NanRat.val 251, z := NanRat.val 1 })
      nanManager { x_ := NanRat.val 0, y_ := NanRat.val 0, z_ := NanRat.val 5 } 0
      { getStateType := "simplified_camera", getElement := fun _ => NanRat.val 0 }
      "all" { x := NanRat.val 10, y := NanRat.val 250 } rfl rfl (by rfl)).imp
      fun _ h => ⟨h.1, h.2.1⟩⟩

end RegistryAndConfidence

end people

/-! ## Theorems about the horizon calibration -/

namespace people

section CalibrationLemmas

variable {F : Type}

/-- Reading element `i` after `setElement(i, v)` gives `v`. -/
theorem CameraState.getElement_setElement_same (cam : CameraState F) (i : Nat) (v : F) :
    (cam.setElement i v).getElement i = v := by
  simp [CameraState.setElement]

/-- The discriminant is not touched by `setElement`. -/
theorem CameraState.getStateType_setElement (cam : CameraState F) (i : Nat) (v : F) :
    (cam.setElement i v).getStateType = cam.getStateType := rfl

/-- A second `setElement` on the same index overwrites the first. -/
theorem CameraState.setElement_setElement (cam : CameraState F) (i : Nat) (a b : F) :
    (cam.setElement i a).setElement i b = cam.setElement i b := by
  simp only [CameraState.setElement]
  congr 1
  funext j
  by_cases h : j = i <;> simp [h]

/-- The rows of the loop of `initializeCamera` are the integers of
`[imin, imax)`. -/
theorem mem_horizonCandidates (imin imax i : Int) :
    i ∈ horizonCandidates imin imax ↔ imin ≤ i ∧ i < imax := by
  simp only [horizonCandidates, List.mem_map, List.mem_range]
  constructor
  · rintro ⟨k, hk, rfl⟩
    omega
  · intro h
    exact ⟨(i - imin).toNat, by omega, by omega⟩

/-- The loop of `initializeCamera` visits `imin` first. -/
theorem horizonCandidates_cons (imin imax : Int) (h : imin < imax) :
    horizonCandidates imin imax = imin :: horizonCandidates (imin + 1) imax := by
  have hn : (imax - imin).toNat = (imax - (imin + 1)).toNat + 1 := by omega
  simp only [horizonCandidates]
  rw [hn, List.range_succ_eq_map, List.map_cons, List.map_map]
  simp only [Nat.cast_zero, add_zero, List.cons.injEq, true_and]
  apply List.map_congr_left
  intro k _
  simp only [Function.comp, Nat.succ_eq_add_one, Nat.cast_add, Nat.cast_one]
  omega

/-- Truncation toward zero moves a value by less than one, never away from
zero. -/
theorem toInt_bounds [LinearOrderedField F] [FloorRing F] (x : F) :
    x - 1 < (toInt x : F) ∧ (toInt x : F) < x + 1 ∧ (x ≤ 0 → x ≤ (toInt x : F)) := by
  unfold toInt
  split
  · rename_i h
    refine ⟨Int.sub_one_lt_floor x, lt_of_le_of_lt (Int.floor_le x) (lt_add_one x), ?_⟩
    intro hx
    have : x = 0 := le_antisymm hx h
    simp [this]
  · exact ⟨lt_of_lt_of_le (sub_one_lt x) (Int.le_ceil x), Int.ceil_lt_add_one x,
      fun _ => Int.le_ceil x⟩

/-- Truncation leaves an integer value alone. -/
theorem toInt_intCast [LinearOrderedField F] [FloorRing F] (k : Int) :
    toInt (k : F) = k := by
  unfold toInt
  split <;> simp

/-- The constant `DBL_MAX` is positive. -/
theorem DBL_MAX_pos [LinearOrderedField F] : (0 : F) < DBL_MAX := by
  unfold DBL_MAX
  have : (2 : F) ^ 971 < 2 ^ 1024 := pow_lt_pow_right₀ one_lt_two (by norm_num)
  exact sub_pos.mpr this

/-- Shape of the state after the loop of `initializeCamera` over the rows `cs`
when `conf` is defined on cameras of the discriminant of `temp`: the loop
returns, the discriminants are unchanged, `temp` still differs from the
original in element 7 at most, and the horizon of `cam_state` is the old one or
one of the rows; the other elements are untouched. -/
theorem horizonScan_shape [LinearOrderedField F] (conf : CameraState F → Option F)
    (cam0 : CameraState F)
    (hconf : ∀ c : CameraState F, c.getStateType = cam0.getStateType → (conf c).isSome) :
    ∀ (cs : List Int) (s : ScanState F),
      (∀ v, s.temp.setElement 7 v = cam0.setElement 7 v) →
      ∃ s', cs.foldl (horizonScanStep conf) (some s) = some s' ∧
        (∀ v, s'.temp.setElement 7 v = cam0.setElement 7 v) ∧
        s'.cam_state.getStateType = s.cam_state.getStateType ∧
        (∀ j, j ≠ 7 → s'.cam_state.getElement j = s.cam_state.getElement j) ∧
        (s'.cam_state.getElement 7 = s.cam_state.getElement 7 ∨
          ∃ i ∈ cs, s'.cam_state.getElement 7 = (i : F))
  | [], s, ht => ⟨s, rfl, ht, rfl, fun _ _ => rfl, Or.inl rfl⟩
  | c :: cs, s, ht => by
    have hty : (s.temp.setElement 7 (c : F)).getStateType = cam0.getStateType := by
      rw [ht]
      rfl
    obtain ⟨tval, htval⟩ := Option.isSome_iff_exists.mp (hconf _ hty)
    have ht' : ∀ v, (s.temp.setElement 7 (c : F)).setElement 7 v = cam0.setElement 7 v := by
      intro v
      rw [CameraState.setElement_setElement]
      exact ht v
    simp only [List.foldl_cons]
    by_cases hlt : s.max_conf < tval
    · have hstep : horizonScanStep conf (some s) c =
          some { cam_state := s.cam_state.setElement 7 (c : F),
                 temp := s.temp.setElement 7 (c : F), max_conf := tval } := by
        simp [horizonScanStep, htval, hlt]
      rw [hstep]
      obtain ⟨s', h1, h2, h3, h4, h5⟩ := horizonScan_shape conf cam0 hconf cs
        { cam_state := s.cam_state.setElement 7 (c : F),
          temp := s.temp.setElement 7 (c : F), max_conf := tval } ht'
      refine ⟨s', h1, h2, h3, ?_, ?_⟩
      · intro j hj
        rw [h4 j hj]
        simp [CameraState.setElement, hj]
      · right
        rcases h5 with h5 | ⟨i, hi, h5⟩
        · exact ⟨c, List.mem_cons_self _ _, by
            rw [h5, CameraState.getElement_setElement_same]⟩
        · exact ⟨i, List.mem_cons_of_mem _ hi, h5⟩
    · have hstep : horizonScanStep conf (some s) c =
          some { s with temp := s.temp.setElement 7 (c : F) } := by
        simp [horizonScanStep, htval, hlt]
      rw [hstep]
      obtain ⟨s', h1, h2, h3, h4, h5⟩ := horizonScan_shape conf cam0 hconf cs
        { s with temp := s.temp.setElement 7 (c : F) } ht'
      refine ⟨s', h1, h2, h3, h4, ?_⟩
      rcases h5 with h5 | ⟨i, hi, h5⟩
      · exact Or.inl h5
      · exact Or.inr ⟨i, List.mem_cons_of_mem _ hi, h5⟩

/-- Rows whose confidence does not exceed the running maximum leave the
returned state and the maximum as they are. -/
theorem horizonScan_no_improvement [LinearOrderedField F] (conf : CameraState F → Option F)
    (cam0 : CameraState F) :
    ∀ (cs : List Int) (s : ScanState F),
      (∀ v, s.temp.setElement 7 v = cam0.setElement 7 v) →
      (∀ i ∈ cs, ∃ t, conf (cam0.setElement 7 (i : F)) = some t ∧ ¬ s.max_conf < t) →
      ∃ s', cs.foldl (horizonScanStep conf) (some s) = some s' ∧
        s'.cam_state = s.cam_state ∧ s'.max_conf = s.max_conf
  | [], s, _, _ => ⟨s, rfl, rfl, rfl⟩
  | c :: cs, s, ht, hno => by
    obtain ⟨t, htc, hnlt⟩ := hno c (List.mem_cons_self _ _)
    rw [← ht] at htc
    have ht' : ∀ v, (s.temp.setElement 7 (c : F)).setElement 7 v = cam0.setElement 7 v := by
      intro v
      rw [CameraState.setElement_setElement]
      exact ht v
    have hstep : horizonScanStep conf (some s) c =
        some { s with temp := s.temp.setElement 7 (c : F) } := by
      simp [horizonScanStep, htc, hnlt]
    simp only [List.foldl_cons]
    rw [hstep]
    exact horizonScan_no_improvement conf cam0 cs
      { s with temp := s.temp.setElement 7 (c : F) } ht'
      (fun i hi => hno i (List.mem_cons_of_mem _ hi))

/-- When the first row of the window has a confidence above `-DBL_MAX` that no
later row of the window exceeds, `initializeCamera` returns the input state
with the horizon set to that first row. -/
theorem initializeCameraWith_first [LinearOrderedField F] [FloorRing F]
    (conf : CameraState F → Option F) (cam_state : CameraState F)
    (hty : cam_state.getStateType = "simplified_camera")
    (hwin : toInt (cam_state.getElement 7 - 200) < toInt (cam_state.getElement 7 + 200))
    (t0 : F)
    (h0 : conf (cam_state.setElement 7 ((toInt (cam_state.getElement 7 - 200) : Int) : F))
      = some t0)
    (hacc : -DBL_MAX < t0)
    (hrest : ∀ i : Int, toInt (cam_state.getElement 7 - 200) < i →
      i < toInt (cam_state.getElement 7 + 200) →
      ∃ t, conf (cam_state.setElement 7 (i : F)) = some t ∧ ¬ t0 < t) :
    initializeCameraWith conf cam_state =
      some (cam_state.setElement 7 ((toInt (cam_state.getElement 7 - 200) : Int) : F)) := by
  unfold initializeCameraWith
  rw [if_pos hty]
  simp only
  rw [horizonCandidates_cons _ _ hwin, List.foldl_cons]
  have hstep : horizonScanStep conf
      (some { cam_state := cam_state, temp := cam_state, max_conf := -DBL_MAX })
      (toInt (cam_state.getElement 7 - 200)) =
      some { cam_state := cam_state.setElement 7
               ((toInt (cam_state.getElement 7 - 200) : Int) : F),
             temp := cam_state.setElement 7
               ((toInt (cam_state.getElement 7 - 200) : Int) : F),
             max_conf := t0 } := by
    simp [horizonScanStep, h0, hacc]
  rw [hstep]
  obtain ⟨s', h1, h2, _⟩ := horizonScan_no_improvement conf cam_state
    (horizonCandidates (toInt (cam_state.getElement 7 - 200) + 1)
      (toInt (cam_state.getElement 7 + 200)))
    { cam_state := cam_state.setElement 7
        ((toInt (cam_state.getElement 7 - 200) : Int) : F),
      temp := cam_state.setElement 7
        ((toInt (cam_state.getElement 7 - 200) : Int) : F),
      max_conf := t0 }
    (fun v => CameraState.setElement_setElement _ _ _ _)
    (fun i hi => by
      rw [mem_horizonCandidates] at hi
      exact hrest i (by omega) hi.2)
  rw [h1, Option.map_some', h2]

/-- For a simplified camera and an object type that `getHorizonVotes` knows,
`getCameraConfidence` returns a value. -/
theorem getCameraConfidence_isSome [LinearOrderedField F] [FloorRing F]
    (hp : HeightPriors F) (mgr : ObservationManager F)
    (hobj : mgr.obj_type_ = ObjectType.ObjPerson ∨ mgr.obj_type_ = ObjectType.ObjCar)
    (cam_state : CameraState F) (hty : cam_state.getStateType = "simplified_camera") :
    (getCameraConfidence hp mgr cam_state).isSome := by
  unfold getCameraConfidence
  rw [if_pos hty]
  rcases hobj with h | h <;> simp [getHorizonVotes, h]

end CalibrationLemmas

end people

namespace people

section CalibrationClaims

variable {F : Type}

/-- C9 (as stated, refuted): for the horizon `250.5` and a constant fused
confidence, `initializeCamera` returns the row 50, which is below
`250.5 - 200 = 50.5`: the window starts at the truncated value of `h - 200`. -/
theorem initializeCamera_below_window :
    (cameraWithHorizon (501 / 2)).getStateType = "simplified_camera" ∧
    ∃ cam', initializeCameraWith (fun _ => some (0 : ℚ)) (cameraWithHorizon (501 / 2))
        = some cam' ∧
      cam'.getElement 7 = 50 ∧
      ¬ ((cameraWithHorizon (501 / 2)).getElement 7 - 200 ≤ cam'.getElement 7) := by
  have hmin : toInt ((cameraWithHorizon (501 / 2)).getElement 7 - 200) = 50 := by
    have h1 : (cameraWithHorizon (501 / 2)).getElement 7 - 200 = (101 / 2 : ℚ) := by
      simp only [cameraWithHorizon, if_true]
      norm_num
    rw [h1]
    unfold toInt
    rw [if_pos (by norm_num)]
    rw [Int.floor_eq_iff]
    norm_num
  have hmax : toInt ((cameraWithHorizon (501 / 2)).getElement 7 + 200) = 450 := by
    have h1 : (cameraWithHorizon (501 / 2)).getElement 7 + 200 = (901 / 2 : ℚ) := by
      simp only [cameraWithHorizon, if_true]
      norm_num
    rw [h1]
    unfold toInt
    rw [if_pos (by norm_num)]
    rw [Int.floor_eq_iff]
    norm_num
  have hfirst := initializeCameraWith_first (fun _ => some (0 : ℚ))
    (cameraWithHorizon (501 / 2)) rfl (by rw [hmin, hmax]; norm_num) 0 rfl
    (neg_lt_zero.mpr DBL_MAX_pos) (fun i _ _ => ⟨0, rfl, lt_irrefl 0⟩)
  rw [hmin] at hfirst
  refine ⟨rfl, _, hfirst, ?_, ?_⟩
  · simp [CameraState.setElement]
  · simp only [CameraState.setElement, cameraWithHorizon, if_true]
    norm_num

/-- C9 (amended): for a camera state of the `"simplified_camera"`
parametrization with horizon `h` and a fused confidence defined on that
parametrization, `initializeCamera` returns a state whose horizon `r` is `h`
itself (no row accepted) or an integer row of the window
`[trunc(h - 200), trunc(h + 200))`; hence `h - 201 < r < h + 200`, and
`h - 200 ≤ r` whenever `h` is an integer or `h ≤ 200`.  The other elements
and the discriminant are unchanged. -/
theorem initializeCamera_window [LinearOrderedField F] [FloorRing F]
    (conf : CameraState F → Option F) (cam_state : CameraState F)
    (hty : cam_state.getStateType = "simplified_camera")
    (hconf : ∀ c : CameraState F, c.getStateType = "simplified_camera" → (conf c).isSome) :
    ∃ cam', initializeCameraWith conf cam_state = some cam' ∧
      cam'.getStateType = "simplified_camera" ∧
      (∀ j, j ≠ 7 → cam'.getElement j = cam_state.getElement j) ∧
      (cam'.getElement 7 = cam_state.getElement 7 ∨
        ∃ i : Int, cam'.getElement 7 = (i : F) ∧
          toInt (cam_state.getElement 7 - 200) ≤ i ∧
          i < toInt (cam_state.getElement 7 + 200)) ∧
      cam_state.getElement 7 - 201 < cam'.getElement 7 ∧
      cam'.getElement 7 < cam_state.getElement 7 + 200 ∧
      (((∃ k : Int, cam_state.getElement 7 = (k : F)) ∨ cam_state.getElement 7 ≤ 200) →
        cam_state.getElement 7 - 200 ≤ cam'.getElement 7) := by
  obtain ⟨s', h1, _, h3, h4, h5⟩ := horizonScan_shape conf cam_state
    (fun c hc => hconf c (hc.trans hty))
    (horizonCandidates (toInt (cam_state.getElement 7 - 200))
      (toInt (cam_state.getElement 7 + 200)))
    { cam_state := cam_state, temp := cam_state, max_conf := -DBL_MAX } (fun _ => rfl)
  have hres : initializeCameraWith conf cam_state = some s'.cam_state := by
    unfold initializeCameraWith
    rw [if_pos hty]
    simp only
    rw [h1]
    rfl
  have hlo := toInt_bounds (cam_state.getElement 7 - 200)
  have hhi := toInt_bounds (cam_state.getElement 7 + 200)
  have hwin : s'.cam_state.getElement 7 = cam_state.getElement 7 ∨
      ∃ i : Int, s'.cam_state.getElement 7 = (i : F) ∧
        toInt (cam_state.getElement 7 - 200) ≤ i ∧
        i < toInt (cam_state.getElement 7 + 200) := by
    rcases h5 with h5 | ⟨i, hi, h5⟩
    · exact Or.inl h5
    · rw [mem_horizonCandidates] at hi
      exact Or.inr ⟨i, h5, hi.1, hi.2⟩
  refine ⟨s'.cam_state, hres, h3.trans hty, h4, hwin, ?_, ?_, ?_⟩
  · rcases hwin with h | ⟨i, hr, hi1, _⟩
    · rw [h]
      linarith
    · rw [hr]
      have : ((toInt (cam_state.getElement 7 - 200) : Int) : F) ≤ (i : F) :=
        Int.cast_le.mpr hi1
      linarith [hlo.1]
  · rcases hwin with h | ⟨i, hr, _, hi2⟩
    · rw [h]
      linarith
    · rw [hr]
      have : ((i + 1 : Int) : F) ≤ ((toInt (cam_state.getElement 7 + 200) : Int) : F) :=
        Int.cast_le.mpr hi2
      push_cast at this
      linarith [hhi.2.1]
  · intro hk
    rcases hwin with h | ⟨i, hr, hi1, _⟩
    · rw [h]
      linarith
    · rw [hr]
      have hcast : ((toInt (cam_state.getElement 7 - 200) : Int) : F) ≤ (i : F) :=
        Int.cast_le.mpr hi1
      rcases hk with ⟨k, hk⟩ | hk
      · have h200 : cam_state.getElement 7 - 200 = ((k - 200 : Int) : F) := by
          rw [hk]
          push_cast
          ring
        rw [h200, toInt_intCast] at hcast
        rw [h200]
        exact hcast
      · exact le_trans (hlo.2.2 (by linarith)) hcast

/-- C9 (amended), instance: horizon 300 and a confidence peaked at row 120: the
returned horizon lies in `[100, 500)`. -/
theorem initializeCamera_window_witness :
    (cameraWithHorizon 300).getStateType = "simplified_camera" ∧
    (∀ c : CameraState ℚ, c.getStateType = "simplified_camera" →
      ((fun c : CameraState ℚ => some (-(c.getElement 7 - 120) ^ 2)) c).isSome) ∧
    ∃ cam', initializeCameraWith (fun c : CameraState ℚ => some (-(c.getElement 7 - 120) ^ 2))
        (cameraWithHorizon 300) = some cam' ∧
      (cameraWithHorizon 300).getElement 7 - 200 ≤ cam'.getElement 7 ∧
      cam'.getElement 7 < (cameraWithHorizon 300).getElement 7 + 200 :=
  ⟨rfl, fun _ _ => rfl,
    (initializeCamera_window (fun c : CameraState ℚ => some (-(c.getElement 7 - 120) ^ 2))
      (cameraWithHorizon 300) rfl (fun _ _ => rfl)).imp
      fun _ h => ⟨h.1, h.2.2.2.2.2.2 (Or.inl ⟨300, by simp [cameraWithHorizon]⟩),
        h.2.2.2.2.2.1⟩⟩

end CalibrationClaims

end people

/-! ## Theorems about the fill phase and the kept entries -/

namespace people

section FillClaims

variable {F : Type}

end FillClaims

end people

/-! ## Theorems about the dropped-index list -/

namespace people

section DropClaims

variable {F : Type}

/-- Keeping a pool entry preserves the dropped-index invariant, also when the
count of visited positions grows by positions that hold the kept
identifier. -/
theorem DropInv_keep {prevAll : List Int} {c c1 : Nat} {ids : List Int} {deleted : List Nat}
    {pool : List (TrackedFeat F)} (h : DropInv prevAll c ids deleted pool)
    {idx : Nat} {f : TrackedFeat F} (hf : pool[idx]? = some f) (hc : c ≤ c1)
    (hnew : ∀ j, c ≤ j → j < c1 → ∀ v, prevAll[j]? = some v → v = f.id) :
    DropInv prevAll c1 (ids ++ [f.id]) deleted (pool.eraseIdx idx) := by
  obtain ⟨h1, h2, h3, h4, h5⟩ := h
  have hmem : f ∈ pool := List.getElem?_mem hf
  refine ⟨h1, fun j hj => lt_of_lt_of_le (h2 j hj) hc, ?_, ?_, ?_⟩
  · intro j hj v hv
    obtain ⟨ha, hb⟩ := h3 j hj v hv
    refine ⟨?_, fun g hg => hb g (List.mem_of_mem_eraseIdx hg)⟩
    intro hin
    rcases List.mem_append.mp hin with hin | hin
    · exact ha hin
    · simp only [List.mem_singleton] at hin
      exact hb f hmem hin.symm
  · intro j hj hnd v hv
    by_cases hjc : j < c
    · exact List.mem_append_left _ (h4 j hjc hnd v hv)
    · have := hnew j (not_lt.mp hjc) hj v hv
      rw [this]
      simp
  · have hp : (ids ++ [f.id] ++ (pool.eraseIdx idx).map fun g => g.id).Perm
        (ids ++ pool.map fun g => g.id) := by
      rw [List.append_assoc]
      have hq := ((perm_cons_eraseIdx_of_getElem? pool idx f hf).map
        fun g : TrackedFeat F => g.id).symm
      simp only [List.map_cons] at hq
      exact List.Perm.append_left ids (by simpa using hq)
    exact hp.nodup_iff.mpr h5

/-- Shrinking the pool preserves the dropped-index invariant. -/
theorem DropInv_shrink {prevAll : List Int} {c : Nat} {ids : List Int} {deleted : List Nat}
    {pool pool1 : List (TrackedFeat F)} (h : DropInv prevAll c ids deleted pool)
    (hsub : pool1.Sublist pool) : DropInv prevAll c ids deleted pool1 := by
  obtain ⟨h1, h2, h3, h4, h5⟩ := h
  refine ⟨h1, h2, ?_, h4, ?_⟩
  · intro j hj v hv
    exact ⟨(h3 j hj v hv).1, fun g hg => (h3 j hj v hv).2 g (hsub.subset hg)⟩
  · exact h5.sublist ((List.Sublist.refl ids).append (hsub.map _))

/-- Recording the next position as deleted preserves the dropped-index
invariant when its identifier is neither kept nor left in the pool. -/
theorem DropInv_drop {prevAll : List Int} {c : Nat} {ids : List Int} {deleted : List Nat}
    {pool : List (TrackedFeat F)} (h : DropInv prevAll c ids deleted pool)
    {w : Int} (hw : prevAll[c]? = some w) (hni : w ∉ ids) (hnp : ∀ g ∈ pool, g.id ≠ w) :
    DropInv prevAll (c + 1) ids (deleted ++ [c]) pool := by
  obtain ⟨h1, h2, h3, h4, h5⟩ := h
  refine ⟨?_, ?_, ?_, ?_, h5⟩
  · rw [List.pairwise_append]
    refine ⟨h1, List.pairwise_singleton _ _, ?_⟩
    intro a ha b hb
    simp only [List.mem_singleton] at hb
    rw [hb]
    exact h2 a ha
  · intro j hj
    rcases List.mem_append.mp hj with hj | hj
    · exact Nat.lt_succ_of_lt (h2 j hj)
    · simp only [List.mem_singleton] at hj
      omega
  · intro j hj v hv
    rcases List.mem_append.mp hj with hj | hj
    · exact h3 j hj v hv
    · simp only [List.mem_singleton] at hj
      rw [hj, hw] at hv
      have : w = v := Option.some.inj hv
      rw [← this]
      exact ⟨hni, hnp⟩
  · intro j hj hnd v hv
    have hjc : j ≠ c := fun he => hnd (List.mem_append_right _ (by simp [he]))
    exact h4 j (by omega) (fun hd => hnd (List.mem_append_left _ hd)) v hv

/-- One body of the first loop at position `c` preserves the dropped-index
invariant and the origin of the kept identifiers, the previous identifiers
being pairwise distinct. -/
theorem DropInv_matchStep (excl : Point2f F → Bool) {prevAll : List Int} (hnd : prevAll.Nodup)
    {c : Nat} {s : FeatSel F} {w : Int} (hw : prevAll[c]? = some w)
    (h : DropInv prevAll c s.gfeats_idx_ s.deleted_feats s.pool)
    (hk : KeptScanned prevAll c s.gfeats_idx_) :
    DropInv prevAll (c + 1) (matchStep excl w c s).gfeats_idx_
        (matchStep excl w c s).deleted_feats (matchStep excl w c s).pool ∧
      KeptScanned prevAll (c + 1) (matchStep excl w c s).gfeats_idx_ := by
  have hk1 : KeptScanned prevAll (c + 1) s.gfeats_idx_ := by
    intro v hv
    obtain ⟨j, hj, hjv⟩ := hk v hv
    exact ⟨j, Nat.lt_succ_of_lt hj, hjv⟩
  have hclen : c < prevAll.length := (List.getElem?_eq_some.mp hw).1
  rcases matchStep_cases excl w c s with ⟨f, hf, hid, _, heq⟩ | ⟨f, hf, hid, _, heq⟩ | ⟨habs, heq⟩
  · rw [heq]
    constructor
    · apply DropInv_keep h hf (Nat.le_succ c)
      intro j hj1 hj2 v hv
      have : j = c := by omega
      rw [this, hw] at hv
      rw [hid]
      exact (Option.some.inj hv).symm
    · intro v hv
      rcases List.mem_append.mp hv with hv | hv
      · exact hk1 v hv
      · simp only [List.mem_singleton] at hv
        exact ⟨c, Nat.lt_succ_self c, by rw [hv, hid]; exact hw⟩
  · rw [heq]
    refine ⟨?_, hk1⟩
    have hmem : f ∈ s.pool := List.getElem?_mem hf
    have h5 := h.2.2.2.2
    have hperm := (perm_cons_eraseIdx_of_getElem? s.pool _ f hf).map fun g => g.id
    have hndp : (s.pool.map fun g => g.id).Nodup := (List.nodup_append.mp h5).2.1
    have hdisj := (List.nodup_append.mp h5).2.2
    have hndc := hperm.nodup_iff.mp hndp
    simp only [List.map_cons, List.nodup_cons] at hndc
    apply DropInv_drop (DropInv_shrink h (List.eraseIdx_sublist s.pool _)) hw
    · intro hin
      exact hdisj hin (by rw [← hid]; exact List.mem_map_of_mem _ hmem)
    · intro g hg hgw
      apply hndc.1
      rw [hid]
      exact List.mem_map.mpr ⟨g, hg, hgw⟩
  · rw [heq]
    refine ⟨?_, hk1⟩
    apply DropInv_drop h hw
    · intro hin
      obtain ⟨j, hj, hjv⟩ := hk w hin
      have : j = c := List.getElem?_inj (lt_trans hj hclen) hnd (hjv.trans hw.symm)
      omega
    · exact habs

/-- The first loop over the identifiers from position `c` on establishes the
dropped-index invariant for the positions it visits. -/
theorem DropInv_matchLoop (excl : Point2f F → Bool) (q : Int) {prevAll : List Int}
    (hnd : prevAll.Nodup) :
    ∀ (rest : List Int) (c : Nat) (s : FeatSel F),
      (∀ k, rest[k]? = prevAll[c + k]?) →
      DropInv prevAll c s.gfeats_idx_ s.deleted_feats s.pool →
      KeptScanned prevAll c s.gfeats_idx_ →
      DropInv prevAll (c + matchScanned excl q rest c s)
        (matchLoop excl q rest c s).gfeats_idx_ (matchLoop excl q rest c s).deleted_feats
        (matchLoop excl q rest c s).pool
  | [], c, s, _, h, _ => by simpa [matchScanned, matchLoop] using h
  | w :: rest, c, s, hrest, h, hk => by
    have hw : prevAll[c]? = some w := by
      have := hrest 0
      simpa using this.symm
    obtain ⟨h1, hk1⟩ := DropInv_matchStep excl hnd hw h hk
    unfold matchScanned matchLoop
    simp only
    split
    · exact h1
    · have ih := DropInv_matchLoop excl q hnd rest (c + 1) (matchStep excl w c s)
        (by
          intro k
          have := hrest (k + 1)
          simp only [List.getElem?_cons_succ] at this
          rw [this]
          congr 1
          omega) h1 hk1
      have heq : c + (1 + matchScanned excl q rest (c + 1) (matchStep excl w c s)) =
          c + 1 + matchScanned excl q rest (c + 1) (matchStep excl w c s) := by omega
      rw [heq]
      exact ih

/-- The second loop preserves the dropped-index invariant. -/
theorem DropInv_fillLoop [LT F] [DecidableRel fun a b : F => a < b]
    (excl : Point2f F → Bool) (q : Int) {prevAll : List Int} {c : Nat} :
    ∀ (fuel : Nat) (s : FeatSel F),
      DropInv prevAll c s.gfeats_idx_ s.deleted_feats s.pool →
      DropInv prevAll c (fillLoop excl q fuel s).gfeats_idx_
        (fillLoop excl q fuel s).deleted_feats (fillLoop excl q fuel s).pool
  | 0, _, h => h
  | fuel + 1, s, h => by
    unfold fillLoop
    split
    · rename_i hc
      have hne : s.pool ≠ [] := by
        intro hnil
        rw [hnil] at hc
        simp at hc
      apply DropInv_fillLoop excl q fuel
      obtain ⟨f, hf, ⟨_, heq⟩ | ⟨_, heq⟩⟩ := fillStep_cases excl s hne
      · rw [heq]
        exact DropInv_keep h hf (le_refl c) (fun j h1 h2 => by omega)
      · rw [heq]
        exact DropInv_shrink h (List.eraseIdx_sublist s.pool _)
    · exact h

/-- On every call on which the method returns, with pairwise distinct
previous identifiers and pairwise distinct pool identifiers, the returned
dropped-index list is strictly increasing, each entry is a position of the
previous-identifier list, the identifier at a dropped position does not occur
in the resulting identifier list, and the identifier of every visited position
that is not dropped is in the resulting identifier list. -/
theorem preprocessFeatsChecked_dropped_list [Add F] [IntCast F] [LT F]
    [DecidableRel fun a b : F => a < b]
    (groupRectangles : List Rect → List Rect) (in_any_rect : List Rect → Point2f F → Bool)
    (tracked : List (TrackedFeat F)) (mgr : ObservationManager F)
    (prev : List Int) (q : Int) (targets : List Rect)
    (r : ObservationManager F × List Nat)
    (hr : preprocessFeatsChecked groupRectangles in_any_rect tracked mgr prev q targets = some r)
    (hprev : prev.Nodup) (hpool : (tracked.map fun f => f.id).Nodup) :
    r.2.Pairwise (fun a b => a < b) ∧
    (∀ j ∈ r.2, j < prev.length) ∧
    (∀ j ∈ r.2, ∀ v, prev[j]? = some v → v ∉ r.1.gfeats_idx_) ∧
    (∀ j, j < scannedPositions groupRectangles in_any_rect tracked mgr prev q targets →
      j ∉ r.2 → ∀ v, prev[j]? = some v → v ∈ r.1.gfeats_idx_) := by
  have he := preprocessFeatsChecked_eq groupRectangles in_any_rect tracked mgr prev q targets r hr
  subst he
  have hinit : DropInv prev 0 (initSel mgr.img_mono_rows tracked).gfeats_idx_
      (initSel mgr.img_mono_rows tracked).deleted_feats
      (initSel mgr.img_mono_rows tracked).pool := by
    refine ⟨List.Pairwise.nil, by simp [initSel], by simp [initSel], by simp, ?_⟩
    simpa [initSel, List.map_map, Function.comp_def, shiftFeat_id] using hpool
  have hloop := DropInv_matchLoop
    (in_any_rect (groupRectangles (duplicatedBoxes targets (getDetections mgr)))) q hprev
    prev 0 (initSel mgr.img_mono_rows tracked) (by simp) hinit
    (by intro v hv; simp [initSel] at hv)
  have hfill := DropInv_fillLoop
    (in_any_rect (groupRectangles (duplicatedBoxes targets (getDetections mgr)))) q
    (matchLoop (in_any_rect (groupRectangles (duplicatedBoxes targets (getDetections mgr))))
      q prev 0 (initSel mgr.img_mono_rows tracked)).pool.length _ hloop
  have hsc := matchScanned_le_length
    (in_any_rect (groupRectangles (duplicatedBoxes targets (getDetections mgr)))) q prev 0
    (initSel mgr.img_mono_rows tracked)
  obtain ⟨h1, h2, h3, h4, _⟩ := hfill
  simp only [Nat.zero_add] at h2 h4
  refine ⟨h1, fun j hj => lt_of_lt_of_le (h2 j hj) hsc, fun j hj v hv => (h3 j hj v hv).1, ?_⟩
  intro j hj hnd v hv
  exact h4 j hj hnd v hv

/-- C20 (behaviour of the code on an absent identifier): tracked pool with the
one identifier 5, previous identifiers `[0]`, quota 1; both lists are pairwise
distinct.  No pool entry carries 0, `std::find` returns `end()`, line 195
dereferences it, and `preprocessFeatsChecked` has no result: the call does not
return the dropped-index list `[0]`. -/
theorem preprocessFeatsChecked_distinct_undefined :
    ([0] : List Int).Nodup ∧
    (([trackedAt 5 10 10 5].map fun f => f.id).Nodup) ∧
    (∀ f ∈ [trackedAt 5 10 10 5], f.id ≠ 0) ∧
    preprocessFeatsChecked groupIdentical inAnyRectInt [trackedAt 5 10 10 5]
        (intManager [] 480) [0] 1 [] = none :=
  ⟨by decide, by decide, by decide, rfl⟩

end DropClaims

end people

/-! ## Theorems about the rows that the calibration visits and selects -/

namespace people

section CalibrationScan

variable {F : Type}

/-- The rows of the loop of `initializeCamera` are visited in increasing
order. -/
theorem horizonCandidates_pairwise (imin imax : Int) :
    (horizonCandidates imin imax).Pairwise (fun a b => a < b) := by
  unfold horizonCandidates
  rw [List.pairwise_map]
  exact (List.pairwise_lt_range _).imp (fun h => by omega)

/-- The window of `initializeCamera` is never empty. -/
theorem horizon_window_nonempty [LinearOrderedField F] [FloorRing F] (h : F) :
    toInt (h - 200) < toInt (h + 200) := by
  have h1 := (toInt_bounds (h - 200)).2.1
  have h2 := (toInt_bounds (h + 200)).1
  have : ((toInt (h - 200) : Int) : F) < ((toInt (h + 200) : Int) : F) := by linarith
  exact Int.cast_lt.mp this

/-- Writing back the value that element `i` already has changes nothing. -/
theorem CameraState.setElement_getElement (cam : CameraState F) (i : Nat) :
    cam.setElement i (cam.getElement i) = cam := by
  cases cam with
  | mk ty el =>
    simp only [CameraState.setElement]
    congr 1
    funext j
    by_cases h : j = i <;> simp [h]

/-- The confidence is evaluated once per row, in the order of the rows, on the
original state with element 7 replaced by the row. -/
theorem horizonScanProbes_eq [LinearOrderedField F] (conf : CameraState F → Option F)
    (cam0 : CameraState F)
    (hconf : ∀ c : CameraState F, c.getStateType = cam0.getStateType → (conf c).isSome) :
    ∀ (cs : List Int) (s : ScanState F),
      (∀ v, s.temp.setElement 7 v = cam0.setElement 7 v) →
      horizonScanProbes conf (some s) cs = cs.map fun (i : Int) => cam0.setElement 7 (i : F)
  | [], _, _ => rfl
  | c :: cs, s, ht => by
    have hty : (s.temp.setElement 7 (c : F)).getStateType = cam0.getStateType := by
      rw [ht]
      rfl
    obtain ⟨tval, htval⟩ := Option.isSome_iff_exists.mp (hconf _ hty)
    have ht1 : ∀ v, (s.temp.setElement 7 (c : F)).setElement 7 v = cam0.setElement 7 v := by
      intro v
      rw [CameraState.setElement_setElement]
      exact ht v
    simp only [horizonScanProbes, List.map_cons]
    rw [ht (c : F)]
    congr 1
    by_cases hlt : s.max_conf < tval
    · have hstep : horizonScanStep conf (some s) c =
          some { cam_state := s.cam_state.setElement 7 (c : F),
                 temp := s.temp.setElement 7 (c : F), max_conf := tval } := by
        simp [horizonScanStep, htval, hlt]
      rw [hstep]
      exact horizonScanProbes_eq conf cam0 hconf cs
        { cam_state := s.cam_state.setElement 7 (c : F),
          temp := s.temp.setElement 7 (c : F), max_conf := tval } ht1
    · have hstep : horizonScanStep conf (some s) c =
          some { s with temp := s.temp.setElement 7 (c : F) } := by
        simp [horizonScanStep, htval, hlt]
      rw [hstep]
      exact horizonScanProbes_eq conf cam0 hconf cs
        { s with temp := s.temp.setElement 7 (c : F) } ht1

/-- The loop of `initializeCamera` maintains `ScanInv`: it returns, and the
state it leaves carries the first row of largest confidence among the visited
rows that exceed the initial maximum, if there is one. -/
theorem horizonScan_argmax [LinearOrderedField F] (conf : CameraState F → Option F)
    (cam0 : CameraState F) (val : Int → F) (m0 : F)
    (hval : ∀ i : Int, conf (cam0.setElement 7 (i : F)) = some (val i)) :
    ∀ (rest pre : List Int) (s : ScanState F),
      (pre ++ rest).Pairwise (fun a b => a < b) →
      (∀ v, s.temp.setElement 7 v = cam0.setElement 7 v) →
      ScanInv cam0 val m0 pre s →
      ∃ s', rest.foldl (horizonScanStep conf) (some s) = some s' ∧
        ScanInv cam0 val m0 (pre ++ rest) s'
  | [], pre, s, _, _, hinv => ⟨s, rfl, by simpa using hinv⟩
  | c :: rest, pre, s, hpw, ht, hinv => by
    have hc : ∀ i ∈ pre, i < c := by
      intro i hi
      exact (List.pairwise_append.mp hpw).2.2 i hi c (List.mem_cons_self _ _)
    have hpw1 : ((pre ++ [c]) ++ rest).Pairwise (fun a b => a < b) := by
      simpa using hpw
    have htc : conf (s.temp.setElement 7 (c : F)) = some (val c) := by
      rw [ht]
      exact hval c
    have ht1 : ∀ v, (s.temp.setElement 7 (c : F)).setElement 7 v = cam0.setElement 7 v := by
      intro v
      rw [CameraState.setElement_setElement]
      exact ht v
    have hassoc : pre ++ c :: rest = (pre ++ [c]) ++ rest := by simp
    simp only [List.foldl_cons]
    rw [hassoc]
    by_cases hlt : s.max_conf < val c
    · have hstep : horizonScanStep conf (some s) c =
          some { cam_state := s.cam_state.setElement 7 (c : F),
                 temp := s.temp.setElement 7 (c : F), max_conf := val c } := by
        simp [horizonScanStep, htc, hlt]
      rw [hstep]
      apply horizonScan_argmax conf cam0 val m0 hval rest (pre ++ [c]) _ hpw1 ht1
      right
      refine ⟨c, by simp, ?_, rfl, ?_, ?_⟩
      · rcases hinv with ⟨h1, _, _⟩ | ⟨r, _, h1, _, _, _⟩
        · simp only [h1]
        · simp only [h1]
          exact CameraState.setElement_setElement _ _ _ _
      · rcases hinv with ⟨_, h2, _⟩ | ⟨r, _, _, h2, h3, _⟩
        · rw [← h2]
          exact hlt
        · rw [h2] at hlt
          exact lt_trans h3 hlt
      · intro i hi
        rcases List.mem_append.mp hi with hi | hi
        · have hle : val i ≤ s.max_conf := by
            rcases hinv with ⟨_, h2, h3⟩ | ⟨r, _, _, h2, _, h4⟩
            · rw [h2]
              exact h3 i hi
            · rw [h2]
              exact (h4 i hi).1
          exact ⟨le_of_lt (lt_of_le_of_lt hle hlt), fun _ => lt_of_le_of_lt hle hlt⟩
        · simp only [List.mem_singleton] at hi
          rw [hi]
          exact ⟨le_refl _, fun h => absurd h (lt_irrefl _)⟩
    · have hstep : horizonScanStep conf (some s) c =
          some { s with temp := s.temp.setElement 7 (c : F) } := by
        simp [horizonScanStep, htc, hlt]
      rw [hstep]
      apply horizonScan_argmax conf cam0 val m0 hval rest (pre ++ [c]) _ hpw1 ht1
      rcases hinv with ⟨h1, h2, h3⟩ | ⟨r, hr, h1, h2, h3, h4⟩
      · left
        refine ⟨h1, h2, ?_⟩
        intro i hi
        rcases List.mem_append.mp hi with hi | hi
        · exact h3 i hi
        · simp only [List.mem_singleton] at hi
          rw [hi, ← h2]
          exact not_lt.mp hlt
      · right
        refine ⟨r, List.mem_append_left _ hr, h1, h2, h3, ?_⟩
        intro i hi
        rcases List.mem_append.mp hi with hi | hi
        · exact h4 i hi
        · simp only [List.mem_singleton] at hi
          rw [hi]
          refine ⟨?_, fun h => absurd (hc r hr) (not_lt.mpr (le_of_lt h))⟩
          rw [← h2]
          exact not_lt.mp hlt

/-- For a confidence defined on the simplified cameras, some row of the window
having a confidence above `-DBL_MAX`, `initializeCamera` returns the input with
element 7 set to a row of the window whose confidence is at least that of
every row of the window and strictly above that of every smaller row. -/
theorem initializeCameraWith_argmax [LinearOrderedField F] [FloorRing F]
    (conf : CameraState F → Option F) (cam_state : CameraState F)
    (hty : cam_state.getStateType = "simplified_camera")
    (hconf : ∀ c : CameraState F, c.getStateType = "simplified_camera" → (conf c).isSome)
    (hsome : ∃ (i : Int) (t : F), toInt (cam_state.getElement 7 - 200) ≤ i ∧
      i < toInt (cam_state.getElement 7 + 200) ∧
      conf (cam_state.setElement 7 (i : F)) = some t ∧ -DBL_MAX < t) :
    ∃ r : Int, toInt (cam_state.getElement 7 - 200) ≤ r ∧
      r < toInt (cam_state.getElement 7 + 200) ∧
      initializeCameraWith conf cam_state = some (cam_state.setElement 7 (r : F)) ∧
      ∀ (j : Int) (tj tr : F), toInt (cam_state.getElement 7 - 200) ≤ j →
        j < toInt (cam_state.getElement 7 + 200) →
        conf (cam_state.setElement 7 (j : F)) = some tj →
        conf (cam_state.setElement 7 (r : F)) = some tr →
        tj ≤ tr ∧ (tj = tr → r ≤ j) := by
  have hval : ∀ i : Int, conf (cam_state.setElement 7 (i : F)) =
      some ((conf (cam_state.setElement 7 (i : F))).getD 0) := by
    intro i
    obtain ⟨t, ht⟩ := Option.isSome_iff_exists.mp (hconf (cam_state.setElement 7 (i : F)) hty)
    rw [ht]
    rfl
  obtain ⟨s', h1, h2⟩ := horizonScan_argmax conf cam_state
    (fun i => (conf (cam_state.setElement 7 (i : F))).getD 0) (-DBL_MAX) hval
    (horizonCandidates (toInt (cam_state.getElement 7 - 200))
      (toInt (cam_state.getElement 7 + 200))) []
    { cam_state := cam_state, temp := cam_state, max_conf := -DBL_MAX }
    (by simpa using horizonCandidates_pairwise _ _) (fun _ => rfl)
    (Or.inl ⟨rfl, rfl, by simp⟩)
  simp only [List.nil_append] at h2
  have hres : initializeCameraWith conf cam_state = some s'.cam_state := by
    unfold initializeCameraWith
    rw [if_pos hty]
    simp only
    rw [h1]
    rfl
  rcases h2 with ⟨_, _, h3⟩ | ⟨r, hr, h3, _, _, h6⟩
  · obtain ⟨i, t, hi1, hi2, hit, hacc⟩ := hsome
    have := h3 i ((mem_horizonCandidates _ _ _).mpr ⟨hi1, hi2⟩)
    beta_reduce at this
    rw [hit] at this
    exact absurd (lt_of_lt_of_le hacc this) (lt_irrefl _)
  · rw [mem_horizonCandidates] at hr
    refine ⟨r, hr.1, hr.2, by rw [hres, h3], ?_⟩
    intro j tj tr hj1 hj2 hcj hcr
    have := h6 j ((mem_horizonCandidates _ _ _).mpr ⟨hj1, hj2⟩)
    beta_reduce at this
    rw [hcj, hcr] at this
    simp only [Option.getD_some] at this
    refine ⟨this.1, fun heq => ?_⟩
    by_contra hlt
    have := this.2 (not_le.mp hlt)
    rw [heq] at this
    exact lt_irrefl _ this

/-- For a confidence defined on the simplified cameras, `initializeCamera`
evaluates it exactly on the input state with element 7 replaced by each row of
the window, in increasing order of the rows. -/
theorem initializeCameraProbes_eq [LinearOrderedField F] [FloorRing F]
    (conf : CameraState F → Option F) (cam_state : CameraState F)
    (hty : cam_state.getStateType = "simplified_camera")
    (hconf : ∀ c : CameraState F, c.getStateType = "simplified_camera" → (conf c).isSome) :
    initializeCameraProbes conf cam_state =
      (horizonCandidates (toInt (cam_state.getElement 7 - 200))
        (toInt (cam_state.getElement 7 + 200))).map
        fun (i : Int) => cam_state.setElement 7 (i : F) := by
  unfold initializeCameraProbes
  rw [if_pos hty]
  exact horizonScanProbes_eq conf cam_state (fun c hc => hconf c (hc.trans hty)) _ _
    (fun _ => rfl)

/-- An integer horizon lies in its own window. -/
theorem horizon_mem_window [LinearOrderedField F] [FloorRing F] (k : Int) :
    k ∈ horizonCandidates (toInt ((k : F) - 200)) (toInt ((k : F) + 200)) := by
  have h1 : (k : F) - 200 = ((k - 200 : Int) : F) := by push_cast; ring
  have h2 : (k : F) + 200 = ((k + 200 : Int) : F) := by push_cast; ring
  rw [h1, h2, toInt_intCast, toInt_intCast, mem_horizonCandidates]
  omega

/-- The horizon of `cameraWithHorizon 300` and the ends of its window. -/
theorem cameraWithHorizon_300_window :
    (cameraWithHorizon 300).getElement 7 = ((300 : Int) : ℚ) ∧
    toInt ((cameraWithHorizon 300).getElement 7 - 200) = 100 ∧
    toInt ((cameraWithHorizon 300).getElement 7 + 200) = 500 := by
  have h0 : (cameraWithHorizon 300).getElement 7 = ((300 : Int) : ℚ) := by
    simp [cameraWithHorizon]
  have h1 : (cameraWithHorizon 300).getElement 7 - 200 = ((100 : Int) : ℚ) := by
    rw [h0]
    norm_num
  have h2 : (cameraWithHorizon 300).getElement 7 + 200 = ((500 : Int) : ℚ) := by
    rw [h0]
    norm_num
  refine ⟨h0, ?_, ?_⟩
  · rw [h1, toInt_intCast]
  · rw [h2, toInt_intCast]

/-- C12 (as stated, refuted): for the fused confidence that is `-DBL_MAX` on
every state, no later row has a strictly greater confidence than the first row
100 of the window of horizon 300, yet the first row is not accepted (the test
is the strict `max_conf < tval` with `max_conf = -DBL_MAX`) and the returned
horizon is still 300. -/
theorem initializeCamera_first_not_accepted :
    toInt ((cameraWithHorizon 300).getElement 7 - 200) = 100 ∧
    (∀ c1 c2 : CameraState ℚ, ∀ t1 t2 : ℚ,
      (fun _ : CameraState ℚ => some (-DBL_MAX : ℚ)) c1 = some t1 →
      (fun _ : CameraState ℚ => some (-DBL_MAX : ℚ)) c2 = some t2 → ¬ t1 < t2) ∧
    ∃ cam', initializeCameraWith (fun _ => some (-DBL_MAX : ℚ)) (cameraWithHorizon 300)
        = some cam' ∧
      cam'.getElement 7 = 300 ∧ cam'.getElement 7 ≠ ((100 : Int) : ℚ) := by
  refine ⟨cameraWithHorizon_300_window.2.1, ?_, ?_⟩
  · intro c1 c2 t1 t2 h1 h2
    simp only [Option.some.injEq] at h1 h2
    rw [← h1, ← h2]
    exact lt_irrefl _
  · obtain ⟨s', h1, h2, _⟩ := horizonScan_no_improvement
      (fun _ : CameraState ℚ => some (-DBL_MAX : ℚ)) (cameraWithHorizon 300)
      (horizonCandidates (toInt ((cameraWithHorizon 300).getElement 7 - 200))
        (toInt ((cameraWithHorizon 300).getElement 7 + 200)))
      { cam_state := cameraWithHorizon 300, temp := cameraWithHorizon 300,
        max_conf := -DBL_MAX }
      (fun _ => rfl) (fun i _ => ⟨-DBL_MAX, rfl, lt_irrefl _⟩)
    have hty : (cameraWithHorizon 300).getStateType = "simplified_camera" := rfl
    refine ⟨cameraWithHorizon 300, ?_, ?_, ?_⟩
    · unfold initializeCameraWith
      rw [if_pos hty]
      simp only
      rw [h1, Option.map_some', h2]
    · simp [cameraWithHorizon]
    · simp [cameraWithHorizon]

/-- C12 (amended): for every fused-confidence function, when the confidence of
the first row of the window (the truncated `h - 200`) exceeds the initial
running maximum `-DBL_MAX` and no later row of the window has a strictly
greater confidence, `initializeCamera` returns the input state with the
horizon set to that first row. -/
theorem initializeCamera_first_accepted [LinearOrderedField F] [FloorRing F]
    (conf : CameraState F → Option F) (cam_state : CameraState F)
    (hty : cam_state.getStateType = "simplified_camera") (t0 : F)
    (h0 : conf (cam_state.setElement 7 ((toInt (cam_state.getElement 7 - 200) : Int) : F))
      = some t0)
    (hacc : -DBL_MAX < t0)
    (hrest : ∀ i : Int, toInt (cam_state.getElement 7 - 200) < i →
      i < toInt (cam_state.getElement 7 + 200) →
      ∃ t, conf (cam_state.setElement 7 (i : F)) = some t ∧ ¬ t0 < t) :
    initializeCameraWith conf cam_state =
      some (cam_state.setElement 7 ((toInt (cam_state.getElement 7 - 200) : Int) : F)) :=
  initializeCameraWith_first conf cam_state hty (horizon_window_nonempty _) t0 h0 hacc hrest

/-- C12 (amended), instance: horizon 300 and the constant confidence 0, which
exceeds `-DBL_MAX`: the returned state carries the first row of the window. -/
theorem initializeCamera_first_accepted_witness :
    (cameraWithHorizon 300).getStateType = "simplified_camera" ∧
    (-DBL_MAX : ℚ) < 0 ∧
    initializeCameraWith (fun _ => some (0 : ℚ)) (cameraWithHorizon 300) =
      some ((cameraWithHorizon 300).setElement 7
        ((toInt ((cameraWithHorizon 300).getElement 7 - 200) : Int) : ℚ)) :=
  ⟨rfl, neg_lt_zero.mpr DBL_MAX_pos,
    initializeCamera_first_accepted (fun _ => some (0 : ℚ)) (cameraWithHorizon 300) rfl 0 rfl
      (neg_lt_zero.mpr DBL_MAX_pos) (fun _ _ _ => ⟨0, rfl, lt_irrefl 0⟩)⟩

/-- C13 (as stated, refuted): for the integer horizon 300 the window
`[100, 500)` contains row 300, so the original state itself is among the
states on which `initializeCamera` evaluates the fused confidence. -/
theorem initializeCamera_probes_original :
    cameraWithHorizon 300 ∈
        initializeCameraProbes (fun _ => some (0 : ℚ)) (cameraWithHorizon 300) ∧
    ∃ c ∈ initializeCameraProbes (fun _ => some (0 : ℚ)) (cameraWithHorizon 300),
      c.getElement 7 = (cameraWithHorizon 300).getElement 7 := by
  have hmem : cameraWithHorizon 300 ∈
      initializeCameraProbes (fun _ => some (0 : ℚ)) (cameraWithHorizon 300) := by
    rw [initializeCameraProbes_eq (fun _ => some (0 : ℚ)) (cameraWithHorizon 300) rfl
      (fun _ _ => rfl), List.mem_map]
    refine ⟨300, ?_, ?_⟩
    · have := horizon_mem_window (F := ℚ) 300
      rw [← cameraWithHorizon_300_window.1] at this
      exact this
    · rw [← cameraWithHorizon_300_window.1]
      exact CameraState.setElement_getElement _ 7
  exact ⟨hmem, _, hmem, rfl⟩

/-- C13 (amended): for a simplified camera with horizon `h`, `initializeCamera`
evaluates the fused confidence exactly on the input state with the horizon
replaced by each integer row of `[trunc(h - 200), trunc(h + 200))`, once per
row in increasing order; the original horizon `h` is among the evaluated rows
exactly when `h` is an integer, and then the original state itself is
evaluated. -/
theorem initializeCamera_probes [LinearOrderedField F] [FloorRing F]
    (conf : CameraState F → Option F) (cam_state : CameraState F)
    (hty : cam_state.getStateType = "simplified_camera")
    (hconf : ∀ c : CameraState F, c.getStateType = "simplified_camera" → (conf c).isSome) :
    initializeCameraProbes conf cam_state =
      (horizonCandidates (toInt (cam_state.getElement 7 - 200))
        (toInt (cam_state.getElement 7 + 200))).map
        (fun (i : Int) => cam_state.setElement 7 (i : F)) ∧
    ((∃ c ∈ initializeCameraProbes conf cam_state,
        c.getElement 7 = cam_state.getElement 7) ↔
      ∃ k : Int, cam_state.getElement 7 = (k : F)) ∧
    ((∃ k : Int, cam_state.getElement 7 = (k : F)) →
      cam_state ∈ initializeCameraProbes conf cam_state) := by
  have heq := initializeCameraProbes_eq conf cam_state hty hconf
  have hint : (∃ k : Int, cam_state.getElement 7 = (k : F)) →
      cam_state ∈ initializeCameraProbes conf cam_state := by
    rintro ⟨k, hk⟩
    rw [heq, List.mem_map]
    refine ⟨k, ?_, ?_⟩
    · rw [hk]
      exact horizon_mem_window (F := F) k
    · rw [← hk]
      exact CameraState.setElement_getElement _ 7
  refine ⟨heq, ⟨?_, fun hk => ⟨cam_state, hint hk, rfl⟩⟩, hint⟩
  rintro ⟨c, hc, hch⟩
  rw [heq, List.mem_map] at hc
  obtain ⟨i, _, rfl⟩ := hc
  rw [CameraState.getElement_setElement_same] at hch
  exact ⟨i, hch.symm⟩

/-- C13 (amended), instance: for the horizon 250.5 and a constant confidence
the evaluated states are the rows of the window and none of them has the
original horizon. -/
theorem initializeCamera_probes_witness :
    (cameraWithHorizon (501 / 2)).getStateType = "simplified_camera" ∧
    ¬ ∃ c ∈ initializeCameraProbes (fun _ => some (0 : ℚ)) (cameraWithHorizon (501 / 2)),
        c.getElement 7 = (cameraWithHorizon (501 / 2)).getElement 7 := by
  refine ⟨rfl, fun h => ?_⟩
  obtain ⟨k, hk⟩ := (initializeCamera_probes (fun _ => some (0 : ℚ))
    (cameraWithHorizon (501 / 2)) rfl (fun _ _ => rfl)).2.1.mp h
  have h2 : (501 / 2 : ℚ) = (k : ℚ) := by
    simpa [cameraWithHorizon] using hk
  have h3 : ((501 : Int) : ℚ) = ((2 * k : Int) : ℚ) := by
    push_cast
    linarith
  have h4 : (501 : Int) = 2 * k := by exact_mod_cast h3
  omega

/-- C14: for a simplified camera and an object type that the manager knows,
when some row of the scanned window has a fused confidence above the initial
running maximum `-DBL_MAX`, `initializeCamera` returns the input state with the
horizon set to a row `r` of the window whose fused confidence
(`getCameraConfidence` on the state with only the horizon replaced) is at least
that of every row of the window, and `r` is the smallest row attaining that
maximum. -/
theorem initializeCamera_argmax [LinearOrderedField F] [FloorRing F]
    (hp : HeightPriors F) (mgr : ObservationManager F) (cam_state : CameraState F)
    (hty : cam_state.getStateType = "simplified_camera")
    (hobj : mgr.obj_type_ = ObjectType.ObjPerson ∨ mgr.obj_type_ = ObjectType.ObjCar)
    (hsome : ∃ (i : Int) (t : F), toInt (cam_state.getElement 7 - 200) ≤ i ∧
      i < toInt (cam_state.getElement 7 + 200) ∧
      getCameraConfidence hp mgr (cam_state.setElement 7 (i : F)) = some t ∧ -DBL_MAX < t) :
    ∃ r : Int, toInt (cam_state.getElement 7 - 200) ≤ r ∧
      r < toInt (cam_state.getElement 7 + 200) ∧
      initializeCamera hp mgr cam_state = some (cam_state.setElement 7 (r : F)) ∧
      ∀ (j : Int) (tj tr : F), toInt (cam_state.getElement 7 - 200) ≤ j →
        j < toInt (cam_state.getElement 7 + 200) →
        getCameraConfidence hp mgr (cam_state.setElement 7 (j : F)) = some tj →
        getCameraConfidence hp mgr (cam_state.setElement 7 (r : F)) = some tr →
        tj ≤ tr ∧ (tj = tr → r ≤ j) :=
  initializeCameraWith_argmax (getCameraConfidence hp mgr) cam_state hty
    (fun c hc => getCameraConfidence_isSome hp mgr hobj c hc) hsome

/-- C14, instance: a manager for persons without detections whose vanishing
point confidence peaks at row 120, camera horizon 300: row 120 has confidence
0 above `-DBL_MAX`, and the calibration returns a maximizing row of the
window. -/
theorem initializeCamera_argmax_witness :
    (cameraWithHorizon 300).getStateType = "simplified_camera" ∧
    (∃ (i : Int) (t : ℚ), toInt ((cameraWithHorizon 300).getElement 7 - 200) ≤ i ∧
      i < toInt ((cameraWithHorizon 300).getElement 7 + 200) ∧
      getCameraConfidence examplePriors (peakManager [])
        ((cameraWithHorizon 300).setElement 7 (i : ℚ)) = some t ∧ -DBL_MAX < t) ∧
    ∃ r : Int, toInt ((cameraWithHorizon 300).getElement 7 - 200) ≤ r ∧
      r < toInt ((cameraWithHorizon 300).getElement 7 + 200) ∧
      initializeCamera examplePriors (peakManager []) (cameraWithHorizon 300) =
        some ((cameraWithHorizon 300).setElement 7 (r : ℚ)) := by
  have hsome : ∃ (i : Int) (t : ℚ), toInt ((cameraWithHorizon 300).getElement 7 - 200) ≤ i ∧
      i < toInt ((cameraWithHorizon 300).getElement 7 + 200) ∧
      getCameraConfidence examplePriors (peakManager [])
        ((cameraWithHorizon 300).setElement 7 (i : ℚ)) = some t ∧ -DBL_MAX < t := by
    refine ⟨120, 0, ?_, ?_, ?_, neg_lt_zero.mpr DBL_MAX_pos⟩
    · rw [cameraWithHorizon_300_window.2.1]
      norm_num
    · rw [cameraWithHorizon_300_window.2.2]
      norm_num
    · simp [getCameraConfidence, getHorizonVotes, horizonVotesFor, getDetections, peakManager,
        ObservationManager.ctor, CameraState.setElement, cameraWithHorizon]
  refine ⟨rfl, hsome, ?_⟩
  obtain ⟨r, h1, h2, h3, _⟩ := initializeCamera_argmax examplePriors (peakManager [])
    (cameraWithHorizon 300) rfl (Or.inl rfl) hsome
  exact ⟨r, h1, h2, h3⟩

end CalibrationScan

end people

/-! ## Theorems about the horizon votes and the fused horizon score -/

namespace people

section HorizonScore

variable {F : Type}

/-- The votes and standard deviations computed for given class constants: the
vote is the top row plus the rounded offset, the standard deviation is the
pixel height times `stdh / mh`. -/
theorem horizonVotesFor_eq [LinearOrderedField F] [FloorRing F] (mh stdh camh : F)
    (dets : List Rect) :
    horizonVotesFor mh stdh camh dets =
      (dets.map fun d => d.y + cround ((d.height : F) * (mh - camh) / mh),
       dets.map fun d => (d.height : F) * stdh / mh) := by
  unfold horizonVotesFor
  congr 1
  · apply List.map_congr_left
    intro d _
    rw [← Int.cast_add, toInt_intCast]
  · apply List.map_congr_left
    intro d _
    rw [div_mul_eq_mul_div]

/-- The output of `getHorizonVotes` for a manager whose object type is person or
car, `mh` and `stdh` being the constants of that class. -/
theorem getHorizonVotes_eq_of_class [LinearOrderedField F] [FloorRing F]
    (hp : HeightPriors F) (mgr : ObservationManager F) (camh mh stdh : F)
    (hcls : (mgr.obj_type_ = ObjectType.ObjPerson ∧ mh = hp.MEAN_PERSON_HEIGHT ∧
        stdh = hp.STD_PERSON_HEIGHT) ∨
      (mgr.obj_type_ = ObjectType.ObjCar ∧ mh = hp.MEAN_CAR_HEIGHT ∧
        stdh = hp.STD_CAR_HEIGHT)) :
    getHorizonVotes hp mgr camh =
      some ((getDetections mgr).map fun d => d.y + cround ((d.height : F) * (mh - camh) / mh),
            (getDetections mgr).map fun d => (d.height : F) * stdh / mh) := by
  rcases hcls with ⟨h1, h2, h3⟩ | ⟨h1, h2, h3⟩ <;>
    simp only [getHorizonVotes, h1, h2, h3, horizonVotesFor_eq]

/-- The accumulation `ret -= term` over the votes is the start value minus the
sum of the terms. -/
theorem foldl_sub_eq [LinearOrderedField F] {α : Type} (g : α → F) :
    ∀ (l : List α) (a : F), l.foldl (fun ret x => ret - g x) a = a - (l.map g).sum
  | [], a => by simp
  | x :: l, a => by
    simp only [List.foldl_cons, List.map_cons, List.sum_cons]
    rw [foldl_sub_eq g l (a - g x), sub_sub]

/-- A sum of terms that lie between 0 and 9 lies between 0 and 9 times the
number of terms. -/
theorem sum_capped_bounds [LinearOrderedField F] {α : Type} (g : α → F) :
    ∀ (l : List α), (∀ x ∈ l, 0 ≤ g x ∧ g x ≤ 9) →
      0 ≤ (l.map g).sum ∧ (l.map g).sum ≤ 9 * (l.length : F)
  | [], _ => by simp
  | x :: l, h => by
    have hx := h x (List.mem_cons_self _ _)
    have ih := sum_capped_bounds g l (fun y hy => h y (List.mem_cons_of_mem _ hy))
    simp only [List.map_cons, List.sum_cons, List.length_cons, Nat.cast_add, Nat.cast_one]
    constructor
    · linarith [hx.1, ih.1]
    · linarith [hx.2, ih.2]

/-- The value of `getCameraConfidence` on a simplified camera for a known object
type: the vanishing point confidence of the horizon, minus the capped squared
deviations of the votes, minus the prior term when `mean_horizon_` is not 0. -/
theorem getCameraConfidence_eq [LinearOrderedField F] [FloorRing F] (hp : HeightPriors F)
    (mgr : ObservationManager F) (cam_state : CameraState F)
    (hty : cam_state.getStateType = "simplified_camera")
    (votes : List Int) (stds : List F)
    (hv : getHorizonVotes hp mgr (cam_state.getElement 3) = some (votes, stds)) :
    getCameraConfidence hp mgr cam_state =
      some (mgr.vp_est_ (cam_state.getElement 7) -
        ((votes.zip stds).map fun vs : Int × F =>
          min ((((vs.1 : F) - cam_state.getElement 7) / vs.2) ^ 2) 9).sum -
        (if mgr.mean_horizon_ ≠ 0 then
          ((cam_state.getElement 7 - mgr.mean_horizon_) / mgr.std_horizon_) ^ 2
         else 0)) := by
  have h9 : (9.0 : F) = 9 := by norm_num
  unfold getCameraConfidence
  rw [if_pos hty, hv]
  simp only [h9]
  rw [foldl_sub_eq (fun vs : Int × F =>
    min ((((vs.1 : F) - cam_state.getElement 7) / vs.2) ^ 2) 9)]
  by_cases hm : mgr.mean_horizon_ = 0
  · simp [hm]
  · simp [hm]

/-- C17: for a simplified camera with horizon `h`, a manager of known object
type and `n` current detections of positive pixel height, the fused horizon
score is the vanishing point confidence of `h` minus, for each detection,
`min(((vote_i - h) / std_i)^2, 9)`, minus the prior term when one is set; each
subtracted detection term lies between 0 and 9, the divisors `std_i` are not
zero for non-zero class constants, and when `mean_horizon_` is 0 the score lies
between `vp(h) - 9 n` and `vp(h)`. -/
theorem getCameraConfidence_bounds [LinearOrderedField F] [FloorRing F] (hp : HeightPriors F)
    (mgr : ObservationManager F) (cam_state : CameraState F)
    (hty : cam_state.getStateType = "simplified_camera")
    (hobj : mgr.obj_type_ = ObjectType.ObjPerson ∨ mgr.obj_type_ = ObjectType.ObjCar)
    (hpos : ∀ d ∈ getDetections mgr, 0 < d.height) :
    ∃ (votes : List Int) (stds : List F) (score : F),
      getHorizonVotes hp mgr (cam_state.getElement 3) = some (votes, stds) ∧
      votes.length = (getDetections mgr).length ∧
      stds.length = (getDetections mgr).length ∧
      (hp.MEAN_PERSON_HEIGHT ≠ 0 → hp.STD_PERSON_HEIGHT ≠ 0 → hp.MEAN_CAR_HEIGHT ≠ 0 →
        hp.STD_CAR_HEIGHT ≠ 0 → ∀ sd ∈ stds, sd ≠ 0) ∧
      getCameraConfidence hp mgr cam_state = some score ∧
      score = mgr.vp_est_ (cam_state.getElement 7) -
        ((votes.zip stds).map fun vs : Int × F =>
          min ((((vs.1 : F) - cam_state.getElement 7) / vs.2) ^ 2) 9).sum -
        (if mgr.mean_horizon_ ≠ 0 then
          ((cam_state.getElement 7 - mgr.mean_horizon_) / mgr.std_horizon_) ^ 2
         else 0) ∧
      (∀ vs ∈ votes.zip stds,
        0 ≤ min ((((vs.1 : F) - cam_state.getElement 7) / vs.2) ^ 2) 9 ∧
        min ((((vs.1 : F) - cam_state.getElement 7) / vs.2) ^ 2) 9 ≤ 9) ∧
      (mgr.mean_horizon_ = 0 →
        mgr.vp_est_ (cam_state.getElement 7) - 9 * ((getDetections mgr).length : F) ≤ score ∧
        score ≤ mgr.vp_est_ (cam_state.getElement 7)) := by
  have hterm : ∀ vs : Int × F,
      0 ≤ min ((((vs.1 : F) - cam_state.getElement 7) / vs.2) ^ 2) 9 ∧
      min ((((vs.1 : F) - cam_state.getElement 7) / vs.2) ^ 2) 9 ≤ 9 :=
    fun vs => ⟨le_min (sq_nonneg _) (by norm_num), min_le_right _ _⟩
  have hvotes : ∃ mh stdh : F, (mh = hp.MEAN_PERSON_HEIGHT ∧ stdh = hp.STD_PERSON_HEIGHT ∨
        mh = hp.MEAN_CAR_HEIGHT ∧ stdh = hp.STD_CAR_HEIGHT) ∧
      getHorizonVotes hp mgr (cam_state.getElement 3) =
        some ((getDetections mgr).map fun d =>
                d.y + cround ((d.height : F) * (mh - cam_state.getElement 3) / mh),
              (getDetections mgr).map fun d => (d.height : F) * stdh / mh) := by
    rcases hobj with h | h
    · exact ⟨_, _, Or.inl ⟨rfl, rfl⟩,
        (getHorizonVotes_eq_of_class hp mgr _ _ _ (Or.inl ⟨h, rfl, rfl⟩))⟩
    · exact ⟨_, _, Or.inr ⟨rfl, rfl⟩,
        (getHorizonVotes_eq_of_class hp mgr _ _ _ (Or.inr ⟨h, rfl, rfl⟩))⟩
  obtain ⟨mh, stdh, hc, hv⟩ := hvotes
  have heq := getCameraConfidence_eq hp mgr cam_state hty _ _ hv
  refine ⟨_, _, _, hv, by simp, by simp, ?_, heq, rfl, fun vs _ => hterm vs, ?_⟩
  · intro h1 h2 h3 h4 sd hsd
    rw [List.mem_map] at hsd
    obtain ⟨d, hd, rfl⟩ := hsd
    have hh : ((d.height : Int) : F) ≠ 0 := by
      have := hpos d hd
      exact_mod_cast (ne_of_gt this)
    rcases hc with ⟨rfl, rfl⟩ | ⟨rfl, rfl⟩
    · exact div_ne_zero (mul_ne_zero hh h2) h1
    · exact div_ne_zero (mul_ne_zero hh h4) h3
  · intro hm
    have hb := sum_capped_bounds (fun vs : Int × F =>
      min ((((vs.1 : F) - cam_state.getElement 7) / vs.2) ^ 2) 9)
      (((getDetections mgr).map fun d =>
          d.y + cround ((d.height : F) * (mh - cam_state.getElement 3) / mh)).zip
        ((getDetections mgr).map fun d => (d.height : F) * stdh / mh))
      (fun vs _ => hterm vs)
    have hlen : ((((getDetections mgr).map fun d =>
          d.y + cround ((d.height : F) * (mh - cam_state.getElement 3) / mh)).zip
        ((getDetections mgr).map fun d => (d.height : F) * stdh / mh)).length : F) =
        ((getDetections mgr).length : F) := by
      simp
    rw [hlen] at hb
    simp only [hm, ne_eq, not_true_eq_false, if_false, sub_zero]
    constructor
    · linarith [hb.2]
    · linarith [hb.1]

/-- C17, instance: a person manager with one detection of positive height and
no prior, camera horizon 300: the score lies within 9 below the vanishing point
confidence. -/
theorem getCameraConfidence_bounds_witness :
    (cameraWithHorizon 300).getStateType = "simplified_camera" ∧
    (∀ d ∈ getDetections
        (peakManager [hogNode [{ x := 0, y := 100, width := 10, height := 50 }]]),
      0 < d.height) ∧
    ∃ score : ℚ,
      getCameraConfidence examplePriors
        (peakManager [hogNode [{ x := 0, y := 100, width := 10, height := 50 }]])
        (cameraWithHorizon 300) = some score ∧
      (peakManager [hogNode [{ x := 0, y := 100, width := 10, height := 50 }]]).vp_est_
          ((cameraWithHorizon 300).getElement 7) -
        9 * ((getDetections
          (peakManager [hogNode [{ x := 0, y := 100, width := 10, height := 50 }]])).length
            : ℚ) ≤ score ∧
      score ≤ (peakManager [hogNode [{ x := 0, y := 100, width := 10, height := 50 }]]).vp_est_
          ((cameraWithHorizon 300).getElement 7) := by
  have hpos : ∀ d ∈ getDetections
      (peakManager [hogNode [{ x := 0, y := 100, width := 10, height := 50 }]]),
      0 < d.height := by
    simp [getDetections, peakManager, hogNode]
  obtain ⟨_, _, score, _, _, _, _, h5, _, _, h8⟩ := getCameraConfidence_bounds examplePriors
    (peakManager [hogNode [{ x := 0, y := 100, width := 10, height := 50 }]])
    (cameraWithHorizon 300) rfl (Or.inl rfl) hpos
  exact ⟨rfl, hpos, score, h5, h8 rfl⟩

/-- The effect of `setParameters` for `mean_horizon` with a value that parses:
the member is set and the parameter is forwarded to every node. -/
theorem setParameters_mean_horizon (lexical_cast : String → Option F)
    (setParameter : ObservationNode F → String → String → ObservationNode F)
    (mgr : ObservationManager F) (vm : String) (m : F) (hm : lexical_cast vm = some m) :
    setParameters lexical_cast setParameter mgr "mean_horizon" vm =
      some { mgr with
        mean_horizon_ := m
        nodes_ := mgr.nodes_.map fun nd => setParameter nd "mean_horizon" vm } := by
  simp [setParameters, hm]

/-- The effect of `setParameters` for `std_horizon` with a value that parses:
the member is set and the parameter is forwarded to every node. -/
theorem setParameters_std_horizon (lexical_cast : String → Option F)
    (setParameter : ObservationNode F → String → String → ObservationNode F)
    (mgr : ObservationManager F) (vs : String) (s : F) (hs : lexical_cast vs = some s) :
    setParameters lexical_cast setParameter mgr "std_horizon" vs =
      some { mgr with
        std_horizon_ := s
        nodes_ := mgr.nodes_.map fun nd => setParameter nd "std_horizon" vs } := by
  simp [setParameters, hs]

/-- The prior term of the fused horizon score: with `mean_horizon_ = m` not 0
the score is the score of the same manager without a prior minus
`((h - m) / std_horizon_)^2`; with `mean_horizon_ = 0` nothing is
subtracted. -/
theorem cameraConfidence_prior_term [LinearOrderedField F] [FloorRing F]
    (hp : HeightPriors F) (mgr : ObservationManager F) (cam_state : CameraState F)
    (hty : cam_state.getStateType = "simplified_camera")
    (hobj : mgr.obj_type_ = ObjectType.ObjPerson ∨ mgr.obj_type_ = ObjectType.ObjCar) :
    ∃ base : F,
      getCameraConfidence hp { mgr with mean_horizon_ := 0 } cam_state = some base ∧
      getCameraConfidence hp mgr cam_state =
        some (base - (if mgr.mean_horizon_ ≠ 0 then
          ((cam_state.getElement 7 - mgr.mean_horizon_) / mgr.std_horizon_) ^ 2 else 0)) := by
  have hsome := getCameraConfidence_isSome hp mgr hobj cam_state hty
  have hv : ∃ votes stds, getHorizonVotes hp mgr (cam_state.getElement 3) =
      some (votes, stds) := by
    rcases hobj with h | h
    · exact ⟨_, _, getHorizonVotes_eq_of_class hp mgr _ _ _ (Or.inl ⟨h, rfl, rfl⟩)⟩
    · exact ⟨_, _, getHorizonVotes_eq_of_class hp mgr _ _ _ (Or.inr ⟨h, rfl, rfl⟩)⟩
  obtain ⟨votes, stds, hv⟩ := hv
  have hv0 : getHorizonVotes hp { mgr with mean_horizon_ := 0 } (cam_state.getElement 3) =
      some (votes, stds) := hv
  have h1 := getCameraConfidence_eq hp mgr cam_state hty votes stds hv
  have h0 := getCameraConfidence_eq hp { mgr with mean_horizon_ := 0 } cam_state hty
    votes stds hv0
  simp only [ne_eq, not_true_eq_false, if_false, sub_zero] at h0
  exact ⟨_, h0, h1⟩

/-- C18 (as stated, refuted): after `mean_horizon` is configured to 0 and
`std_horizon` to 1, the fused horizon score at horizon 300 is the score
without prior, `vp(300) = -32400`; it does not additionally subtract
`((300 - 0) / 1)^2 = 90000`. -/
theorem getCameraConfidence_prior_zero_ignored :
    ∃ mgr1 mgr2 : ObservationManager ℚ,
      setParameters exampleLexicalCast ignoreParameter (peakManager []) "mean_horizon" "0" =
        some mgr1 ∧
      setParameters exampleLexicalCast ignoreParameter mgr1 "std_horizon" "1" = some mgr2 ∧
      mgr2.mean_horizon_ = 0 ∧ mgr2.std_horizon_ = 1 ∧
      getCameraConfidence examplePriors { mgr2 with mean_horizon_ := 0 }
        (cameraWithHorizon 300) = some (-32400) ∧
      getCameraConfidence examplePriors mgr2 (cameraWithHorizon 300) = some (-32400) ∧
      (-32400 : ℚ) ≠ -32400 - ((300 - 0) / 1) ^ 2 := by
  refine ⟨_, _,
    setParameters_mean_horizon exampleLexicalCast ignoreParameter (peakManager []) "0" 0 rfl,
    setParameters_std_horizon exampleLexicalCast ignoreParameter _ "1" 1 rfl,
    rfl, rfl, ?_, ?_, by norm_num⟩
  · simp [getCameraConfidence, getHorizonVotes, horizonVotesFor, getDetections, peakManager,
      ObservationManager.ctor, cameraWithHorizon]
    norm_num
  · simp [getCameraConfidence, getHorizonVotes, horizonVotesFor, getDetections, peakManager,
      ObservationManager.ctor, cameraWithHorizon]
    norm_num

/-- C18 (amended): when `mean_horizon` has been configured to a value `m` other
than 0 and `std_horizon` to a non-zero `s` through `setParameters`, the fused
horizon score of a simplified camera with horizon `h` is the score of the same
manager without prior minus `((h - m) / s)^2`. -/
theorem getCameraConfidence_prior [LinearOrderedField F] [FloorRing F]
    (lexical_cast : String → Option F)
    (setParameter : ObservationNode F → String → String → ObservationNode F)
    (hp : HeightPriors F) (mgr : ObservationManager F) (cam_state : CameraState F)
    (vm vs : String) (m s : F)
    (hm : lexical_cast vm = some m) (hs : lexical_cast vs = some s)
    (hm0 : m ≠ 0) (hs0 : s ≠ 0)
    (hty : cam_state.getStateType = "simplified_camera")
    (hobj : mgr.obj_type_ = ObjectType.ObjPerson ∨ mgr.obj_type_ = ObjectType.ObjCar) :
    ∃ (mgr1 mgr2 : ObservationManager F) (base : F),
      setParameters lexical_cast setParameter mgr "mean_horizon" vm = some mgr1 ∧
      setParameters lexical_cast setParameter mgr1 "std_horizon" vs = some mgr2 ∧
      mgr2.mean_horizon_ = m ∧ mgr2.std_horizon_ = s ∧ s ≠ 0 ∧
      getCameraConfidence hp { mgr2 with mean_horizon_ := 0 } cam_state = some base ∧
      getCameraConfidence hp mgr2 cam_state =
        some (base - ((cam_state.getElement 7 - m) / s) ^ 2) := by
  have h1 := setParameters_mean_horizon lexical_cast setParameter mgr vm m hm
  have h2 := setParameters_std_horizon lexical_cast setParameter
    { mgr with
      mean_horizon_ := m
      nodes_ := mgr.nodes_.map fun nd => setParameter nd "mean_horizon" vm } vs s hs
  obtain ⟨base, hb0, hb1⟩ := cameraConfidence_prior_term hp
    { mgr with
      mean_horizon_ := m
      std_horizon_ := s
      nodes_ := (mgr.nodes_.map fun nd => setParameter nd "mean_horizon" vm).map
        fun nd => setParameter nd "std_horizon" vs } cam_state hty hobj
  refine ⟨_, _, base, h1, h2, rfl, rfl, hs0, hb0, ?_⟩
  rw [hb1]
  simp only [ne_eq, hm0, not_false_eq_true, if_true]

/-- C18 (amended), instance: `mean_horizon` configured to 100 and
`std_horizon` to 50 on a person manager, camera horizon 300: the score is the
score without prior minus `((300 - 100) / 50)^2`. -/
theorem getCameraConfidence_prior_witness :
    exampleLexicalCast "100" = some 100 ∧ exampleLexicalCast "50" = some 50 ∧
    (100 : ℚ) ≠ 0 ∧ (50 : ℚ) ≠ 0 ∧
    ∃ (mgr2 : ObservationManager ℚ) (base : ℚ),
      mgr2.mean_horizon_ = 100 ∧ mgr2.std_horizon_ = 50 ∧
      getCameraConfidence examplePriors { mgr2 with mean_horizon_ := 0 }
        (cameraWithHorizon 300) = some base ∧
      getCameraConfidence examplePriors mgr2 (cameraWithHorizon 300) =
        some (base - (((cameraWithHorizon 300).getElement 7 - 100) / 50) ^ 2) := by
  refine ⟨rfl, rfl, by norm_num, by norm_num, ?_⟩
  obtain ⟨_, mgr2, base, _, _, h3, h4, _, h6, h7⟩ := getCameraConfidence_prior
    exampleLexicalCast ignoreParameter examplePriors (peakManager []) (cameraWithHorizon 300)
    "100" "50" 100 50 rfl rfl (by norm_num) (by norm_num) rfl (Or.inl rfl)
  exact ⟨mgr2, base, h3, h4, h6, h7⟩

end HorizonScore

end people

/-! ## Theorems about the grouping step -/

namespace people

section GroupingClaims

variable {F : Type}

/-- Every box occurs in the duplicated list twice as often as among the targets
and detections. -/
theorem count_duplicatedBoxes (targets dets : List Rect) (b : Rect) :
    (duplicatedBoxes targets dets).count b = 2 * (targets.count b + dets.count b) := by
  have h : ∀ l : List Rect, (l.flatMap fun r => [r, r]).count b = 2 * l.count b := by
    intro l
    induction l with
    | nil => simp
    | cons a l ih =>
      simp only [List.flatMap_cons, List.count_append, ih, List.count_cons, List.count_nil]
      split <;> omega
  simp only [duplicatedBoxes, List.count_append, h]
  omega

/-- The boxes of the duplicated list are the targets and the detections. -/
theorem mem_duplicatedBoxes (targets dets : List Rect) (x : Rect) :
    x ∈ duplicatedBoxes targets dets ↔ x ∈ targets ∨ x ∈ dets := by
  simp only [duplicatedBoxes, List.mem_append, List.mem_flatMap, List.mem_cons,
    List.mem_singleton, List.not_mem_nil, or_false, or_self]
  constructor
  · rintro (⟨a, ha, rfl⟩ | ⟨a, ha, rfl⟩)
    · exact Or.inl ha
    · exact Or.inr ha
  · rintro (h | h)
    · exact Or.inl ⟨x, h, rfl⟩
    · exact Or.inr ⟨x, h, rfl⟩

/-- A non-empty cluster of copies of an isolated box grows to exactly the copies
of that box. -/
theorem growCluster_isolated (similar : Rect → Rect → Bool) (bbs : List Rect) (b : Rect)
    (hiso : ∀ x ∈ bbs, x ≠ b → similar b x = false ∧ similar x b = false)
    (c : List Rect) (hne : c ≠ []) (hc : ∀ y ∈ c, y = b) :
    growCluster similar bbs c = bbs.filter fun x => decide (x = b) := by
  have hbc : b ∈ c := by
    cases c with
    | nil => exact absurd rfl hne
    | cons y ys =>
      rw [← hc y (List.mem_cons_self _ _)]
      exact List.mem_cons_self _ _
  unfold growCluster
  apply List.filter_congr
  intro x hx
  by_cases hxb : x = b
  · subst hxb
    simp [hbc]
  · have h1 : c.contains x = false := by
      rw [Bool.eq_false_iff]
      intro hcx
      exact hxb (hc x (by simpa using hcx))
    have h2 : (c.any fun y => similar y x || similar x y) = false := by
      rw [Bool.eq_false_iff]
      intro hany
      rw [List.any_eq_true] at hany
      obtain ⟨y, hy, hs⟩ := hany
      rw [hc y hy] at hs
      have := hiso x hx hxb
      simp [this.1, this.2] at hs
    have h3 : x ∉ c := fun hcx => hxb (hc x hcx)
    simp [h2, h3, hxb]

/-- The cluster of an isolated box of `bbs` consists of the copies of the box. -/
theorem clusterOf_isolated (similar : Rect → Rect → Bool) (bbs : List Rect) (b : Rect)
    (hb : b ∈ bbs)
    (hiso : ∀ x ∈ bbs, x ≠ b → similar b x = false ∧ similar x b = false) :
    clusterOf similar bbs b = List.replicate (bbs.count b) b := by
  have hpos : 0 < bbs.count b := List.count_pos_iff.mpr hb
  have hC : (bbs.filter fun x => decide (x = b)) = List.replicate (bbs.count b) b :=
    List.filter_eq bbs b
  have hCne : List.replicate (bbs.count b) b ≠ [] := by
    intro h
    have := congrArg List.length h
    simp at this
    omega
  have hCall : ∀ y ∈ List.replicate (bbs.count b) b, y = b :=
    fun y hy => (List.mem_replicate.mp hy).2
  have hfix : growCluster similar bbs (List.replicate (bbs.count b) b) =
      List.replicate (bbs.count b) b := by
    rw [growCluster_isolated similar bbs b hiso _ hCne hCall, hC]
  have hfirst : growCluster similar bbs [b] = List.replicate (bbs.count b) b := by
    rw [growCluster_isolated similar bbs b hiso [b] (by simp) (by simp), hC]
  have hlen : bbs.length = (bbs.length - 1) + 1 := by
    have := List.length_pos_of_mem hb
    omega
  unfold clusterOf
  rw [hlen, Function.iterate_succ_apply, hfirst]
  exact Function.iterate_fixed hfix _

/-- C11: with the grouping of the specification (clusters of similar boxes,
clusters of more than `minGroup ≤ 1` boxes kept as their merged box, a merge
that maps copies of one box to that box), every target region and every current
detection that is not similar to any other input box is among the exclusion
zones that the grouping step of `preprocessFeats` builds from the duplicated
boxes. -/
theorem isolated_box_retained (similar : Rect → Rect → Bool) (merge : List Rect → Rect)
    (minGroup : Nat) (hmin : minGroup ≤ 1)
    (hmerge : ∀ (r : Rect) (n : Nat), merge (List.replicate (n + 1) r) = r)
    (mgr : ObservationManager F) (targets : List Rect) (b : Rect)
    (hb : b ∈ targets ∨ b ∈ getDetections mgr)
    (hiso : ∀ x, x ∈ targets ∨ x ∈ getDetections mgr → x ≠ b →
      similar b x = false ∧ similar x b = false) :
    b ∈ groupRectanglesSpec similar merge minGroup
      (duplicatedBoxes targets (getDetections mgr)) := by
  have hmem : b ∈ duplicatedBoxes targets (getDetections mgr) :=
    (mem_duplicatedBoxes _ _ _).mpr hb
  have hcount := count_duplicatedBoxes targets (getDetections mgr) b
  have hpos : 0 < targets.count b + (getDetections mgr).count b := by
    rcases hb with h | h
    · have := List.count_pos_iff.mpr h
      omega
    · have := List.count_pos_iff.mpr h
      omega
  have hcl := clusterOf_isolated similar (duplicatedBoxes targets (getDetections mgr)) b hmem
    (fun x hx hxb => hiso x ((mem_duplicatedBoxes _ _ _).mp hx) hxb)
  unfold groupRectanglesSpec
  rw [List.mem_map]
  refine ⟨clusterOf similar (duplicatedBoxes targets (getDetections mgr)) b, ?_, ?_⟩
  · rw [List.mem_filter]
    refine ⟨List.mem_dedup.mpr (List.mem_map_of_mem _ hmem), ?_⟩
    rw [hcl, List.length_replicate, hcount]
    simp only [decide_eq_true_eq]
    omega
  · rw [hcl]
    have : (duplicatedBoxes targets (getDetections mgr)).count b =
        ((duplicatedBoxes targets (getDetections mgr)).count b - 1) + 1 := by omega
    rw [this]
    exact hmerge b _

/-- C11, instance: a detection far from the only target region and not similar
to it: the detection is among the exclusion zones after grouping with group
threshold 1. -/
theorem isolated_box_retained_witness :
    ((1 : Nat) ≤ 1) ∧
    ({ x := 400, y := 340, width := 10, height := 10 } : Rect) ∈
      getDetections (intManager
        [{ getType := "hog", getConfidence := fun _ => 1,
           getDetections := [{ x := 400, y := 340, width := 10, height := 10 }] }] 480) ∧
    ({ x := 400, y := 340, width := 10, height := 10 } : Rect) ∈
      groupRectanglesSpec similarRectsInt mergeFirst 1
        (duplicatedBoxes [{ x := 0, y := 300, width := 100, height := 100 }]
          (getDetections (intManager
            [{ getType := "hog", getConfidence := fun _ => 1,
               getDetections := [{ x := 400, y := 340, width := 10, height := 10 }] }] 480))) :=
  ⟨le_refl 1, by decide,
    isolated_box_retained similarRectsInt mergeFirst 1 (le_refl 1)
      (fun r n => by simp [mergeFirst, List.replicate_succ])
      (intManager
        [{ getType := "hog", getConfidence := fun _ => 1,
           getDetections := [{ x := 400, y := 340, width := 10, height := 10 }] }] 480)
      [{ x := 0, y := 300, width := 100, height := 100 }]
      { x := 400, y := 340, width := 10, height := 10 } (Or.inr (by decide))
      (by
        intro x hx hne
        have hx2 : x = { x := 0, y := 300, width := 100, height := 100 } := by
          rcases hx with hx | hx
          · simpa using hx
          · have : x = { x := 400, y := 340, width := 10, height := 10 } := by
              simpa [getDetections, intManager] using hx
            exact absurd this hne
        subst hx2
        decide)⟩

end GroupingClaims

end people
